import Mathlib

/-!
# go.nd: strided N-dimensional arrays

A shallow embedding of `nd/idx.go`, `nd/array.go` (package `nd`) and `scale.go`,
and the properties of the index arithmetic, construction, views, reshaping and
element-wise scaling proved over it.

Conventions of the embedding:

* Go `int` is a 64-bit two's-complement integer.  Values are mathematical
  integers in `[-2^63, 2^63)`; every arithmetic result is passed through
  `wrapInt`.
* Go `float64` arithmetic is IEEE-754 binary64 with round-to-nearest-even.
  A finite `float64` is represented by the rational number it denotes and every
  operation rounds its exact result with `roundF64`.
* A run-time panic (index out of range, slice bounds out of range, explicit
  `panic`) is the result `none`.
* A slice of `float64` is a window on a backing array, so that two slices on
  the same backing array alias each other.
-/

namespace GoNd

/-! ## Machine integers -/

/-- Smallest value of a Go `int` on a 64-bit platform. -/
def minInt : Int := -(2 ^ 63)

/-- Largest value of a Go `int` on a 64-bit platform. -/
def maxInt : Int := 2 ^ 63 - 1

/-- Reduction of a mathematical integer to the 64-bit two's-complement value
that Go's `int` arithmetic produces for it. -/
def wrapInt (x : Int) : Int := (x + 2 ^ 63) % 2 ^ 64 - 2 ^ 63

/-- The integers that are values of a Go `int`. -/
def IsInt (x : Int) : Prop := minInt ≤ x ∧ x ≤ maxInt

instance (x : Int) : Decidable (IsInt x) := by unfold IsInt; infer_instance

/-! ## Shapes, indices, strides -/

/-- Modelled from the spec: the declaration of the type `Shape` is not among the
sources; the spec calls it an ordered sequence of integers (one extent per
axis) and the code uses it as a slice of `int`. -/
abbrev Shape := List Int

/-- Modelled from the spec: the declaration of the type `Index` is not among the
sources; the spec calls it an ordered sequence of integers (one coordinate per
axis) and the code uses it as a slice of `int`. -/
abbrev Index := List Int

/-- The inner loop of `ComputeStrides` and of `ComputeSize`:
`for _, n := range ns { acc *= n }`. -/
def mulAll (acc : Int) (ns : List Int) : Int :=
  ns.foldl (fun a n => wrapInt (a * n)) acc

/-- `ComputeSize` of `nd/array.go`: `size := shape[0]`, then multiplied by every
later extent.  Indexing `shape[0]` panics on the empty shape. -/
def ComputeSize : Shape → Option Int
  | [] => none
  | n :: rest => some (mulAll n rest)

/-- `ComputeStrides` of `nd/idx.go`: for every axis `k` the entry starts at `1`
and is multiplied by every extent of `shape[k+1:]`. -/
def ComputeStrides (shape : Shape) : Shape :=
  (List.range shape.length).map fun k => mulAll 1 (shape.drop (k + 1))

/-- The loop of `Sub2ind` started with the accumulator `k`:
`for i, s := range strides { k += s * ind[i] }`.  Reading `ind[i]` panics when
`ind` is shorter than `strides`. -/
def Sub2indFrom (k : Int) : Shape → Index → Option Int
  | [], _ => some k
  | _ :: _, [] => none
  | s :: strides, i :: ind => Sub2indFrom (wrapInt (k + wrapInt (s * i))) strides ind

/-- `Sub2ind` of `nd/idx.go`: the named result `k` starts at zero. -/
def Sub2ind (strides : Shape) (ind : Index) : Option Int :=
  Sub2indFrom 0 strides ind

/-! ## binary64 arithmetic -/

/-- Nearest integer to a rational, ties to the even neighbour. -/
def roundEven (x : ℚ) : ℤ :=
  if x - ⌊x⌋ < 1 / 2 then ⌊x⌋
  else if 1 / 2 < x - ⌊x⌋ then ⌊x⌋ + 1
  else if ⌊x⌋ % 2 = 0 then ⌊x⌋ else ⌊x⌋ + 1

/-- Rounding of an exact result to binary64 (53 significant bits, nearest, ties
to even).  The exponent is not clamped: every quantity formed by `Ind2sub` from
64-bit integers is zero or has magnitude between `2^-64` and `2^64`, well
inside the normal range of binary64. -/
def roundF64 (x : ℚ) : ℚ :=
  if x = 0 then 0
  else roundEven (x / 2 ^ (Int.log 2 |x| - 52)) * 2 ^ (Int.log 2 |x| - 52)

/-- Go's conversion `int(f)` of a finite `float64`: the fractional part is
discarded (truncation towards zero).  When the value does not fit in an `int`
the language leaves the result implementation-dependent: `none`.  (The
conversion itself does not panic: on amd64 it yields the smallest `int` and the
code goes on.  Such a run is not followed here, and no property below reaches
one.) -/
def truncInt (x : ℚ) : Option Int :=
  if (minInt : ℚ) ≤ x ∧ x < 2 ^ 63 then
    some (if 0 ≤ x then ⌊x⌋ else ⌈x⌉)
  else none

/-- The quotient step of `Ind2sub`: `int(float64(k) * (1.0 / float64(s)))`.
For `s = 0` the reciprocal is infinite and the conversion of the product
(infinite or not a number) is implementation-dependent: `none`, as in
`truncInt`; every property below has strides of at least one. -/
def quotF64 (k s : Int) : Option Int :=
  if s = 0 then none
  else truncInt (roundF64 (roundF64 k * roundF64 (1 / roundF64 s)))

/-- `Ind2sub` of `nd/idx.go`: for every stride, `l` is the quotient step of the
remaining offset, the offset is reduced by `s * l`, and `l` is stored in
`ind[j]`.  Storing panics when `ind` is shorter than `strides`; entries of `ind`
beyond the rank are left as they are. -/
def Ind2sub : Shape → Int → Index → Option Index
  | [], _, ind => some ind
  | _ :: _, _, [] => none
  | s :: strides, k, _ :: ind =>
    match quotF64 k s with
    | none => none
    | some l =>
      match Ind2sub strides (wrapInt (k - wrapInt (s * l))) ind with
      | none => none
      | some rest => some (l :: rest)

/-! ## Buffers -/

/-- A finite `float64` value, represented by the rational number it denotes. -/
abbrev Float64 := ℚ

/-- A Go slice of `float64`: the window of `len` elements that starts at
position `off` of its backing array.  The backing array itself is passed to
every read and write, so two slices on one backing array alias each other.
(Capacity is not recorded: no buffer is ever appended to or re-extended.) -/
structure Slice where
  off : Nat
  len : Nat
deriving DecidableEq

/-- The slice expression `d[o:]`: it panics unless `0 ≤ o ≤ len(d)`, and
otherwise denotes the rest of the window from its `o`-th element. -/
def Slice.sliceFrom (d : Slice) (o : Int) : Option Slice :=
  if 0 ≤ o ∧ o ≤ d.len then some ⟨d.off + o.toNat, d.len - o.toNat⟩ else none

/-- The read `d[j]` on the backing array `mem`: it panics unless
`0 ≤ j < len(d)`. -/
def Slice.get (mem : List Float64) (d : Slice) (j : Int) : Option Float64 :=
  if 0 ≤ j ∧ j < d.len then mem[d.off + j.toNat]? else none

/-- The write `d[j] = x` on the backing array `mem`, returning the backing array
after the write: it panics unless `0 ≤ j < len(d)`. -/
def Slice.set (mem : List Float64) (d : Slice) (j : Int) (x : Float64) :
    Option (List Float64) :=
  if 0 ≤ j ∧ j < d.len then some (mem.set (d.off + j.toNat) x) else none

/-- Largest length that `make([]float64, n)` accepts: the runtime refuses a
slice of more than `maxAlloc = 2^48` bytes (64-bit platforms with 48-bit heap
addresses, such as linux/amd64), that is of more than `2^45` elements of eight
bytes. -/
def maxSliceLen : Int := 2 ^ 45

/-- The allocation `make([]float64, n)`: a fresh backing array of `n` zeros and
the slice of all of it.  A negative length, and a length above `maxSliceLen`,
panic (`makeslice: len out of range`).  A length the runtime accepts is taken to
be allocated: running out of physical memory is a fatal error of the runtime,
not a panic, and is not modelled. -/
def makeSlice (n : Int) : Option (List Float64 × Slice) :=
  if 0 ≤ n ∧ n ≤ maxSliceLen then some (List.replicate n.toNat 0, ⟨0, n.toNat⟩) else none

/-! ## Arrays -/

/-- Modelled from the spec: the iterator type and its constructor `Iter` are not
among the sources.  The spec (section 3) has an iterator "created bound to one
Array's current shape/strides" and names no way for its creation to fail; the
binding is all that is recorded here. -/
structure iterator where
  shape : Shape
  strides : Shape
deriving DecidableEq

/-- Modelled from the spec: the declaration of the struct `ndarray` is not among
the sources.  The fields are those that `nd/array.go` reads and writes: the
buffer `data`, the rank `ndims`, `shape`, `strides`, the element count `size`
and the default iterator `it` (absent, `nil`, in a view). -/
structure ndarray where
  data : Slice
  ndims : Int
  shape : Shape
  strides : Shape
  size : Int
  it : Option iterator
deriving DecidableEq

/-- Modelled from the spec: `Iter` is not among the sources; it binds a new
iterator to the current shape and strides of the array (spec, section 3). -/
def Iter (array : ndarray) : iterator :=
  { shape := array.shape, strides := array.strides }

/-- `Zeros` of `nd/array.go`: rank and a copy of the shape, strides and size
computed from it, the default iterator (bound while the buffer is still `nil`),
then the zero-filled buffer.  Returns the fresh backing array together with the
array.  `ComputeSize` panics on the empty shape and the allocation panics on a
negative size and on a size above `maxSliceLen`. -/
def Zeros (n : Shape) : Option (List Float64 × ndarray) :=
  match ComputeSize n with
  | none => none
  | some size =>
    let res : ndarray :=
      { data := ⟨0, 0⟩, ndims := n.length, shape := n, strides := ComputeStrides n,
        size := size, it := none }
    match makeSlice size with
    | none => none
    | some (mem, data) => some (mem, { res with it := some (Iter res), data := data })

/-- `View` of `nd/array.go`: the buffer is `array.data[Sub2ind(array.strides,
start):]`, the strides are `array.strides[array.ndims-len(shape):]`, the size is
`ComputeSize(shape)`; no iterator is bound.  Each of the three expressions can
panic. -/
def ndarray.View (array : ndarray) (start : Index) (shape : Shape) : Option ndarray :=
  match Sub2ind array.strides start with
  | none => none
  | some o =>
    match array.data.sliceFrom o with
    | none => none
    | some data =>
      if 0 ≤ wrapInt (array.ndims - shape.length) ∧
          wrapInt (array.ndims - shape.length) ≤ array.strides.length then
        match ComputeSize shape with
        | none => none
        | some size =>
          some { data := data, ndims := shape.length, shape := shape,
                 strides := array.strides.drop (wrapInt (array.ndims - shape.length)).toNat,
                 size := size, it := none }
      else none

/-- The stride loop of `Reshape`: the strides start as a copy of the new shape
(`append(arr.strides[:0], shape...)`) and entry `k` is then overwritten by `1`
multiplied by every extent of `shape[k+1:]`, for `k` in order. -/
def reshapeStrides (shape : Shape) : Shape :=
  (List.range shape.length).foldl
    (fun strides k => strides.set k (mulAll 1 (shape.drop (k + 1)))) shape

/-- The state of an array object after a call that mutates it in place, and
whether the call returned (`ok`) or panicked. -/
structure Outcome where
  array : ndarray
  ok : Bool
deriving DecidableEq

/-- `Reshape` of `nd/array.go`.  The call panics (on `shape[0]` inside
`ComputeSize`, or explicitly on a size mismatch) before it has written anything;
otherwise it overwrites shape, strides, rank and iterator of the array in place.
The argument `shape` is a value: it is taken not to share storage with the
strides of the array. -/
def Reshape (arr : ndarray) (shape : Shape) : Outcome :=
  match ComputeSize shape with
  | none => { array := arr, ok := false }
  | some n =>
    if arr.size ≠ n then { array := arr, ok := false }
    else
      { array :=
          { arr with
            shape := shape, strides := reshapeStrides shape, ndims := shape.length,
            it := some (Iter { arr with shape := shape, strides := reshapeStrides shape,
                                        ndims := shape.length }) },
        ok := true }

/-! ## Vocabulary of the properties -/

/-- The exact dot product `Σ strides[i] * ind[i]` over the common length. -/
def dot : List Int → List Int → Int
  | s :: strides, i :: ind => s * i + dot strides ind
  | _, _ => 0

/-- A coordinate is valid for a shape: same length and `0 ≤ ind[i] < shape[i]`
on every axis. -/
def ValidIndex : Shape → Index → Prop
  | [], [] => True
  | n :: shape, i :: ind => 0 ≤ i ∧ i < n ∧ ValidIndex shape ind
  | _, _ => False

instance : (shape : Shape) → (ind : Index) → Decidable (ValidIndex shape ind)
  | [], [] => isTrue trivial
  | [], _ :: _ => isFalse (by simp [ValidIndex])
  | _ :: _, [] => isFalse (by simp [ValidIndex])
  | n :: shape, i :: ind =>
    have := instDecidableValidIndex shape ind
    by unfold ValidIndex; infer_instance

/-- An array is well formed on the backing array `mem`: a shape of rank at least
one with extents at least one, the rank (an `int`), the row-major strides and
the size derived from the shape (the size being the exact product, which
therefore is an `int`), and a buffer of exactly `size` elements inside `mem`. -/
def WellFormed (mem : List Float64) (a : ndarray) : Prop :=
  a.shape ≠ [] ∧ (∀ n ∈ a.shape, 1 ≤ n) ∧ a.ndims = a.shape.length ∧ a.ndims ≤ maxInt ∧
    a.strides = ComputeStrides a.shape ∧ a.size = a.shape.prod ∧ a.size ≤ maxInt ∧
    (a.data.len : Int) = a.size ∧ a.data.off + a.data.len ≤ mem.length

/-- Left padding of a coordinate with zeros up to the rank `r`. -/
def padIndex (r : Nat) (idx : Index) : Index :=
  List.replicate (r - idx.length) 0 ++ idx

/-- Axis-wise sum of two coordinates. -/
def addIndex (a b : Index) : Index := List.zipWith (· + ·) a b

/-- The array of the spec's view example: shape `{2,2}` over the buffer
`[1,2,3,4]`. -/
def exampleParent : ndarray :=
  { data := ⟨0, 4⟩, ndims := 2, shape := [2, 2], strides := [2, 1], size := 4,
    it := some { shape := [2, 2], strides := [2, 1] } }

/-- The view of the spec's example: start `{1,0}`, shape `{1,2}`. -/
def exampleView : ndarray :=
  { data := ⟨2, 2⟩, ndims := 2, shape := [1, 2], strides := [2, 1], size := 2, it := none }

/-- The array of the spec's reshape example: shape `{2,3}` over a buffer of six
elements. -/
def exampleMatrix : ndarray :=
  { data := ⟨0, 6⟩, ndims := 2, shape := [2, 3], strides := [3, 1], size := 6,
    it := some { shape := [2, 3], strides := [3, 1] } }

/-! ## Construction from values -/

/-- The builtin `copy(dst, src)` on the backing array `mem`: the first
`min(len(dst), len(src))` elements of `src` are stored at the start of the
window `dst`, here written from position `pos` on for a window of `n` remaining
elements. -/
def copyFrom (mem : List Float64) (pos : Nat) : Nat → List Float64 → List Float64
  | 0, _ => mem
  | _ + 1, [] => mem
  | n + 1, x :: src => copyFrom (mem.set pos x) (pos + 1) n src

/-- `New` of `nd/array.go`: `Zeros(n)`, then `copy(res.data, v)`. -/
def New (n : Shape) (v : List Float64) : Option (List Float64 × ndarray) :=
  match Zeros n with
  | none => none
  | some (mem, res) => some (copyFrom mem res.data.off res.data.len v, res)

/-! ## Shape comparison -/

/-- The loop of `IsShapeSame`, with `n` iterations left from index `i`:
`if ashape[i] != bshape[i] { return false }`, and `true` after the last
iteration.  An index beyond either shape panics. -/
def shapeLoop (ashape bshape : Shape) : Nat → Nat → Option Bool
  | 0, _ => some true
  | n + 1, i =>
    match ashape[i]?, bshape[i]? with
    | some x, some y => if x ≠ y then some false else shapeLoop ashape bshape n (i + 1)
    | _, _ => none

/-- Modelled from the spec: the method `Ndims()` of the `Array` interface is not
among the sources; section 6 lists it among the array entry points, and it
returns the rank of the array. -/
def ndarray.Ndims (a : ndarray) : Int := a.ndims

/-- Modelled from the spec: the method `Shape()` of the `Array` interface is not
among the sources; section 6 lists it among the array entry points, and it
returns the shape of the array. -/
def ndarray.Shape (a : ndarray) : List Int := a.shape

/-- `IsShapeSame` of `nd/array.go`: `false` on unequal ranks, then the loop over
`i < a.Ndims()`. -/
def IsShapeSame (a b : ndarray) : Option Bool :=
  if a.Ndims ≠ b.Ndims then some false
  else shapeLoop a.Shape b.Shape a.Ndims.toNat 0

/-! ## Element-wise scale -/

/-- The `float64` product `a * b`: the exact product rounded to binary64, for
finite operands and a result within the normal range (no overflow to an
infinity, no underflow, no NaN).  The properties of `Scale` below move this
product between elements and hold whatever value it has. -/
def mulF64 (a b : Float64) : Float64 := roundF64 (a * b)

/-- Modelled from the spec: the interface `iter.Iterator` is not among the
sources.  Section 4.5 gives its capabilities: `Len()`, the number of elements
visited; `Data()`, the flat buffer, shared and not copied; `Ind()`, the ordered
linear offsets into `Data()` that are visited.  An iterator is recorded by these
three observations together with the identity `id` of the iterator object, so
that equality of two records is the interface comparison `x == y`. -/
structure Iterator where
  id : Nat
  len : Int
  data : Slice
  ind : List Int
deriving DecidableEq

/-- The state of the backing array after a call that writes to it, and whether
the call returned (`ok`) or panicked. -/
structure Run where
  mem : List Float64
  ok : Bool
deriving DecidableEq

/-- The in-place branch of `Scale`: `for _, k := range x.Ind() { xd[k] *= a }`.
An offset outside `xd` panics, with the earlier writes done. -/
def scaleInPlace (a : Float64) (xd : Slice) : List Int → List Float64 → Run
  | [], mem => { mem := mem, ok := true }
  | k :: ind, mem =>
    match xd.get mem k with
    | none => { mem := mem, ok := false }
    | some v =>
      match xd.set mem k (mulF64 v a) with
      | none => { mem := mem, ok := false }
      | some mem1 => scaleInPlace a xd ind mem1

/-- The general loop of `Scale`, with `n` iterations left on the rest of the two
offset lists: `yd[yi[i]] = a * xd[xi[i]]`.  An exhausted offset list, or an
offset outside its buffer, panics, with the earlier writes done. -/
def scaleLoop (a : Float64) (xd yd : Slice) :
    Nat → List Int → List Int → List Float64 → Run
  | 0, _, _, mem => { mem := mem, ok := true }
  | n + 1, kx :: xi, ky :: yi, mem =>
    match xd.get mem kx with
    | none => { mem := mem, ok := false }
    | some v =>
      match yd.set mem ky (mulF64 a v) with
      | none => { mem := mem, ok := false }
      | some mem1 => scaleLoop a xd yd n xi yi mem1
  | _ + 1, _, _, mem => { mem := mem, ok := false }

/-- `Scale` of `scale.go` on the backing array `mem`: the explicit panic on
unequal lengths, the in-place branch when `x` and `y` are the same iterator,
and otherwise the general loop over `i < x.Len()`. -/
def Scale (mem : List Float64) (a : Float64) (x y : Iterator) : Run :=
  if x.len ≠ y.len then { mem := mem, ok := false }
  else if x = y then scaleInPlace a x.data x.ind mem
  else scaleLoop a x.data y.data x.len.toNat x.ind y.ind mem

/-- An iterator honours its contract on the backing array `mem` (spec, section
4.5): `Ind()` lists exactly `Len()` offsets, each inside `Data()`, and `Data()`
lies inside `mem`. -/
def Iterator.Valid (mem : List Float64) (x : Iterator) : Prop :=
  x.len = x.ind.length ∧ (∀ k ∈ x.ind, 0 ≤ k ∧ k < x.data.len) ∧
    x.data.off + x.data.len ≤ mem.length

/-! ## Arithmetic ranges -/

/-- The `float64` sum `a + b`: the exact sum rounded to binary64. -/
def addF64 (a b : Float64) : Float64 := roundF64 (a + b)

/-- The `float64` difference `a - b`: the exact difference rounded to binary64. -/
def subF64 (a b : Float64) : Float64 := roundF64 (a - b)

/-- The `float64` quotient `a / b`: the exact quotient rounded to binary64.  A
zero divisor gives an infinity or a NaN, which is no finite value: `none`. -/
def divF64 (a b : Float64) : Option Float64 :=
  if b = 0 then none else some (roundF64 (a / b))

/-- The library function `math.Remainder(x, y)`: the IEEE 754 remainder
`x - n * y`, where `n` is the integer nearest to `x / y`, ties to even; the
result is exact.  For `y = 0` it is a NaN: `none`. -/
def remainderF64 (x y : Float64) : Option Float64 :=
  if y = 0 then none else some (x - roundEven (x / y) * y)

/-- The element count `m` of `Arange`: `int(stop - start)` without a step, and
`int(q + r)` with `q = (stop - start) / inc` and
`r = math.Remainder(stop - start, inc)` when a step `inc` is given. -/
def arangeCount (start stop : Float64) (step : List Float64) : Option Int :=
  match step with
  | [] => truncInt (subF64 stop start)
  | inc :: _ =>
    match divF64 (subF64 stop start) inc, remainderF64 (subF64 stop start) inc with
    | some q, some r => truncInt (addF64 q r)
    | _, _ => none

/-- The fill loop of `Arange`, with `n` iterations left from index `i`:
`res.data[i] = res.data[i-1] + inc`. -/
def arangeFill (inc : Float64) (d : Slice) : Nat → Int → List Float64 → Option (List Float64)
  | 0, _, mem => some mem
  | n + 1, i, mem =>
    match d.get mem (i - 1) with
    | none => none
    | some prev =>
      match d.set mem i (addF64 prev inc) with
      | none => none
      | some mem1 => arangeFill inc d n (i + 1) mem1

/-- `Arange` of `nd/array.go`: the element count `m`, `Zeros(Shape{1, m})`,
`res.data[0] = start` (a panic when `m` is zero), then the fill loop for
`1 ≤ i < res.size`.  The step defaults to `1`. -/
def Arange (start stop : Float64) (step : List Float64) : Option (List Float64 × ndarray) :=
  match arangeCount start stop step with
  | none => none
  | some m =>
    match Zeros [1, m] with
    | none => none
    | some (mem, res) =>
      match res.data.set mem 0 start with
      | none => none
      | some mem1 =>
        match arangeFill (step.headD 1) res.data (res.size - 1).toNat 1 mem1 with
        | none => none
        | some mem2 => some (mem2, res)

/-! ## Further vocabulary and examples -/

/-- A sub-shape fits behind a start coordinate: on every axis
`start[i] + shape[i] ≤ parent[i]`, for three sequences of one length. -/
def FitsIn : Shape → Index → Shape → Prop
  | [], [], [] => True
  | p :: parent, s :: start, n :: shape => s + n ≤ p ∧ FitsIn parent start shape
  | _, _, _ => False

/-- The iterator `x` of the spec's scale example: the three elements at the start
of the backing array. -/
def exampleX : Iterator := { id := 0, len := 3, data := ⟨0, 3⟩, ind := [0, 1, 2] }

/-- The iterator `y` of the spec's scale example: the three elements that follow
those of `exampleX` on the backing array. -/
def exampleY : Iterator := { id := 1, len := 3, data := ⟨3, 3⟩, ind := [0, 1, 2] }

/-- A second iterator object bound to the buffer and offsets of `exampleX`. -/
def exampleX2 : Iterator := { id := 2, len := 3, data := ⟨0, 3⟩, ind := [0, 1, 2] }

/-- An iterator on the buffer of `exampleX` that visits it in rotated order. -/
def exampleRot : Iterator := { id := 3, len := 3, data := ⟨0, 3⟩, ind := [1, 2, 0] }

/-- An iterator of two elements on the buffer of `exampleY`. -/
def exampleShort : Iterator := { id := 4, len := 2, data := ⟨3, 3⟩, ind := [0, 1] }

/-- An iterator over the first three elements of a parent buffer of four
elements. -/
def exampleParentIt : Iterator := { id := 5, len := 3, data := ⟨0, 4⟩, ind := [0, 1, 2] }

/-- An iterator over the three elements of the view `data[1:]` of the buffer of
`exampleParentIt`: its offsets `0,1,2` are the parent's offsets `1,2,3`. -/
def exampleViewIt : Iterator := { id := 6, len := 3, data := ⟨1, 3⟩, ind := [0, 1, 2] }

/-! # Properties -/

/-! ## Machine integers: basic facts -/

theorem wrapInt_of_isInt {x : Int} (h : IsInt x) : wrapInt x = x := by
  unfold IsInt minInt maxInt at h
  unfold wrapInt
  omega

theorem isInt_wrapInt (x : Int) : IsInt (wrapInt x) := by
  unfold IsInt minInt maxInt wrapInt
  omega

theorem wrapInt_modEq (x : Int) : wrapInt x ≡ x [ZMOD 2 ^ 64] := by
  unfold wrapInt Int.ModEq
  omega

theorem wrapInt_congr {a b : Int} (h : a ≡ b [ZMOD 2 ^ 64]) : wrapInt a = wrapInt b := by
  unfold Int.ModEq at h
  unfold wrapInt
  omega

theorem wrapInt_mul_left (a b : Int) : wrapInt (wrapInt a * b) = wrapInt (a * b) :=
  wrapInt_congr ((wrapInt_modEq a).mul_right b)

theorem wrapInt_one : wrapInt 1 = 1 := by decide

theorem wrapInt_zero : wrapInt 0 = 0 := by decide

/-- The multiplication loop computes the machine product. -/
theorem wrapInt_mulAll (acc : Int) (ns : List Int) :
    wrapInt (mulAll acc ns) = wrapInt (acc * ns.prod) := by
  induction ns generalizing acc with
  | nil => simp [mulAll]
  | cons n rest ih =>
    have h := ih (wrapInt (acc * n))
    simp only [mulAll, List.foldl_cons] at h ⊢
    rw [h, wrapInt_mul_left, List.prod_cons, mul_assoc]

theorem isInt_mulAll {acc : Int} (h : IsInt acc) (ns : List Int) : IsInt (mulAll acc ns) := by
  induction ns generalizing acc with
  | nil => simpa [mulAll] using h
  | cons n rest ih =>
    simp only [mulAll, List.foldl_cons]
    exact ih (isInt_wrapInt _)

theorem mulAll_eq {acc : Int} (h : IsInt acc) (ns : List Int) :
    mulAll acc ns = wrapInt (acc * ns.prod) := by
  rw [← wrapInt_mulAll, wrapInt_of_isInt (isInt_mulAll h ns)]

theorem isInt_one : IsInt 1 := by decide

theorem ComputeStrides_cons (n : Int) (rest : Shape) :
    ComputeStrides (n :: rest) = mulAll 1 rest :: ComputeStrides rest := by
  simp [ComputeStrides, List.range_succ_eq_map, Function.comp_def]

theorem ComputeStrides_length (shape : Shape) :
    (ComputeStrides shape).length = shape.length := by
  simp [ComputeStrides]

theorem ComputeStrides_get (shape : Shape) (k : Nat) (hk : k < shape.length) :
    (ComputeStrides shape)[k]? = some (wrapInt (shape.drop (k + 1)).prod) := by
  simp [ComputeStrides, List.getElem?_map, List.getElem?_range hk, mulAll_eq isInt_one]

theorem ComputeStrides_last (shape : Shape) (hne : shape ≠ []) :
    (ComputeStrides shape).getLast? = some 1 := by
  rw [List.getLast?_eq_getElem?, ComputeStrides_length,
    ComputeStrides_get shape (shape.length - 1)
      (Nat.sub_lt (List.length_pos.mpr hne) Nat.one_pos)]
  have : shape.length - 1 + 1 = shape.length :=
    Nat.sub_add_cancel (List.length_pos.mpr hne)
  simp [this, wrapInt_one]

/-- C4 (as stated) fails at the shape `{1, 2^32, 2^32}`: the product of
`shape[1:]` is `2^64`, which `int` arithmetic reduces to `0`, so the stride of
axis 0 is `0`. -/
theorem ComputeStrides_wraps :
    ComputeStrides [1, 4294967296, 4294967296] = [0, 4294967296, 1] ∧
    (([1, 4294967296, 4294967296] : Shape).drop 1).prod = 18446744073709551616 ∧
    (ComputeStrides [1, 4294967296, 4294967296])[0]? ≠ some 18446744073709551616 := by
  have hs : ComputeStrides [1, 4294967296, 4294967296] = [0, 4294967296, 1] := by
    norm_num [ComputeStrides, mulAll, wrapInt, List.range_succ]
  refine ⟨hs, by norm_num, ?_⟩
  rw [hs]
  norm_num

/-- C4 (as amended): for every shape of rank at least one, `ComputeStrides shape`
has the length of `shape`, the last stride is `1`, and for every axis `k` whose
product of `shape[k+1:]` is an `int` the `k`-th entry equals that product; in
general the entry is that product reduced to an `int` modulo `2^64`. -/
theorem ComputeStrides_spec (shape : Shape) (hne : shape ≠ []) :
    (ComputeStrides shape).length = shape.length ∧
    (∀ k, k < shape.length →
      (ComputeStrides shape)[k]? = some (wrapInt (shape.drop (k + 1)).prod) ∧
      (IsInt (shape.drop (k + 1)).prod →
        (ComputeStrides shape)[k]? = some (shape.drop (k + 1)).prod)) ∧
    (ComputeStrides shape).getLast? = some 1 := by
  refine ⟨ComputeStrides_length shape, fun k hk => ⟨ComputeStrides_get shape k hk, ?_⟩,
    ComputeStrides_last shape hne⟩
  intro hfit
  rw [ComputeStrides_get shape k hk, wrapInt_of_isInt hfit]

/-- Instance of the amended C4 at the shape `{2,3,4}`, whose strides are
`{12,4,1}`. -/
theorem ComputeStrides_spec_witness :
    ([2, 3, 4] : Shape) ≠ [] ∧ IsInt (([2, 3, 4] : Shape).drop (0 + 1)).prod ∧
      (ComputeStrides [2, 3, 4])[0]? = some 12 ∧
      (ComputeStrides [2, 3, 4]).getLast? = some 1 :=
  ⟨by decide, by decide,
    ((ComputeStrides_spec [2, 3, 4] (by decide)).2.1 0 (by decide)).2 (by decide),
    (ComputeStrides_spec [2, 3, 4] (by decide)).2.2⟩

theorem ComputeSize_eq (shape : Shape) (hne : shape ≠ []) (hint : ∀ n ∈ shape, IsInt n) :
    ComputeSize shape = some (wrapInt shape.prod) := by
  cases shape with
  | nil => exact absurd rfl hne
  | cons n rest => simp [ComputeSize, mulAll_eq (hint n (List.mem_cons_self n rest))]

/-- C5 (as stated) fails at the shape `{2^62, 2}`: the product of the entries is
`2^63`, which `int` arithmetic reduces to `-2^63`. -/
theorem ComputeSize_wraps :
    ComputeSize [4611686018427387904, 2] = some (-9223372036854775808) ∧
    ([4611686018427387904, 2] : Shape).prod = 9223372036854775808 ∧
    ComputeSize [4611686018427387904, 2] ≠ some 9223372036854775808 := by
  have hs : ComputeSize [4611686018427387904, 2] = some (-9223372036854775808) := by
    norm_num [ComputeSize, mulAll, wrapInt]
  refine ⟨hs, by norm_num, ?_⟩
  rw [hs]
  norm_num

/-- C5 (as amended): for every non-empty shape (of `int` extents) whose product of
all entries is an `int`, `ComputeSize shape` equals that product; in general it
is that product reduced to an `int` modulo `2^64`. -/
theorem ComputeSize_spec (shape : Shape) (hne : shape ≠ [])
    (hint : ∀ n ∈ shape, IsInt n) :
    ComputeSize shape = some (wrapInt shape.prod) ∧
    (IsInt shape.prod → ComputeSize shape = some shape.prod) :=
  ⟨ComputeSize_eq shape hne hint, fun hfit => by
    rw [ComputeSize_eq shape hne hint, wrapInt_of_isInt hfit]⟩

/-- Instance of the amended C5 at the shape `{2,3,4}`, of size `24`. -/
theorem ComputeSize_spec_witness :
    ([2, 3, 4] : Shape) ≠ [] ∧ (∀ n ∈ ([2, 3, 4] : Shape), IsInt n) ∧
      IsInt ([2, 3, 4] : Shape).prod ∧ ComputeSize [2, 3, 4] = some 24 :=
  ⟨by decide, by decide, by decide,
    (ComputeSize_spec [2, 3, 4] (by decide) (by decide)).2 (by decide)⟩

/-! ## binary64 rounding: error bound and exactness -/

theorem roundEven_err (y : ℚ) : |(roundEven y : ℚ) - y| ≤ 1 / 2 := by
  have h1 := Int.floor_le y
  have h2 := Int.lt_floor_add_one y
  unfold roundEven
  rw [abs_le]
  split_ifs <;> constructor <;> push_cast <;> linarith

theorem roundEven_intCast (n : ℤ) : roundEven (n : ℚ) = n := by
  simp [roundEven]

theorem roundEven_eq_of_abs_lt (y : ℚ) (m : ℤ) (h : |y - m| < 1 / 2) : roundEven y = m := by
  have h1 := roundEven_err y
  have h2 : |((roundEven y - m : ℤ) : ℚ)| < 1 := by
    have : ((roundEven y - m : ℤ) : ℚ) = ((roundEven y : ℚ) - y) + (y - m) := by
      push_cast; ring
    rw [this]
    calc |((roundEven y : ℚ) - y) + (y - m)| ≤ |(roundEven y : ℚ) - y| + |y - m| := abs_add _ _
      _ < 1 := by linarith
  have h3 : |roundEven y - m| < 1 := by exact_mod_cast h2
  have h4 := Int.abs_lt_one_iff.mp h3
  omega

theorem two_zpow_pos (e : ℤ) : (0 : ℚ) < 2 ^ e := zpow_pos (by norm_num) e

theorem zpow_log_le_abs {x : ℚ} (hx : x ≠ 0) : (2 : ℚ) ^ Int.log 2 |x| ≤ |x| := by
  have h := Int.zpow_log_le_self (R := ℚ) (b := 2) (by norm_num) (abs_pos.mpr hx)
  simpa using h

theorem abs_lt_zpow_log_succ (x : ℚ) : |x| < (2 : ℚ) ^ (Int.log 2 |x| + 1) := by
  have h := Int.lt_zpow_succ_log_self (R := ℚ) (b := 2) (by norm_num) |x|
  simpa using h

theorem log_abs_eq {x : ℚ} {e : ℤ} (hlo : (2 : ℚ) ^ e ≤ |x|) (hhi : |x| < (2 : ℚ) ^ (e + 1)) :
    Int.log 2 |x| = e := by
  have hpos : (0 : ℚ) < |x| := lt_of_lt_of_le (two_zpow_pos e) hlo
  have h1 : e ≤ Int.log 2 |x| :=
    (Int.zpow_le_iff_le_log (R := ℚ) (b := 2) (by norm_num) hpos).mp (by simpa using hlo)
  have h2 : Int.log 2 |x| < e + 1 :=
    (Int.lt_zpow_iff_log_lt (R := ℚ) (b := 2) (by norm_num) hpos).mp (by simpa using hhi)
  omega

/-- Relative error of one rounding: at most `2^-53`. -/
theorem roundF64_err (x : ℚ) : |roundF64 x - x| ≤ |x| / 2 ^ 53 := by
  by_cases hx : x = 0
  · simp [roundF64, hx]
  · have hlog := zpow_log_le_abs hx
    have he := two_zpow_pos (Int.log 2 |x| - 52)
    have h52 : (2 : ℚ) ^ (Int.log 2 |x| - 52) = (2 : ℚ) ^ Int.log 2 |x| / 2 ^ 52 := by
      rw [zpow_sub₀ (by norm_num)]; norm_num
    have herr := roundEven_err (x / 2 ^ (Int.log 2 |x| - 52))
    have heq : roundF64 x - x =
        ((roundEven (x / 2 ^ (Int.log 2 |x| - 52)) : ℚ) - x / 2 ^ (Int.log 2 |x| - 52)) *
          2 ^ (Int.log 2 |x| - 52) := by
      simp only [roundF64, hx, if_false]
      field_simp
    rw [heq, abs_mul, abs_of_pos he]
    calc |(roundEven (x / 2 ^ (Int.log 2 |x| - 52)) : ℚ) - x / 2 ^ (Int.log 2 |x| - 52)| *
          2 ^ (Int.log 2 |x| - 52)
        ≤ 1 / 2 * 2 ^ (Int.log 2 |x| - 52) := mul_le_mul_of_nonneg_right herr he.le
      _ = (2 : ℚ) ^ Int.log 2 |x| / 2 ^ 53 := by rw [h52]; ring
      _ ≤ |x| / 2 ^ 53 := by
        apply div_le_div_of_nonneg_right hlog; positivity

/-- A value whose scaled significand is an integer is not changed by rounding. -/
theorem roundF64_exact (x : ℚ) (m : ℤ) (hm : x / 2 ^ (Int.log 2 |x| - 52) = m) :
    roundF64 x = x := by
  by_cases hx : x = 0
  · simp [roundF64, hx]
  · have he := two_zpow_pos (Int.log 2 |x| - 52)
    simp only [roundF64, hx, if_false]
    rw [hm, roundEven_intCast, ← hm]
    field_simp

/-- Evaluation of a rounding from its binade and its rounded significand. -/
theorem roundF64_eq_of (x : ℚ) (e m : ℤ) (hlo : (2 : ℚ) ^ (e + 52) ≤ |x|)
    (hhi : |x| < (2 : ℚ) ^ (e + 52 + 1)) (hm : roundEven (x / 2 ^ e) = m) :
    roundF64 x = m * 2 ^ e := by
  have hpos : (0 : ℚ) < |x| := lt_of_lt_of_le (two_zpow_pos _) hlo
  have hx : x ≠ 0 := abs_pos.mp hpos
  have hl := log_abs_eq hlo hhi
  simp only [roundF64, hx, if_false, hl]
  have : e + 52 - 52 = e := by ring
  rw [this, hm]

/-- Integers of magnitude at most `2^53` are binary64 values. -/
theorem roundF64_intCast (n : ℤ) (h : |n| ≤ 2 ^ 53) : roundF64 (n : ℚ) = n := by
  by_cases hn : n = 0
  · simp [roundF64, hn]
  have hx : (n : ℚ) ≠ 0 := by exact_mod_cast hn
  have hq : |(n : ℚ)| ≤ 2 ^ 53 := by exact_mod_cast h
  have hlog := zpow_log_le_abs hx
  have hlt : Int.log 2 |(n : ℚ)| < 54 := by
    have hpos : (0 : ℚ) < |(n : ℚ)| := abs_pos.mpr hx
    apply (Int.lt_zpow_iff_log_lt (R := ℚ) (b := 2) (by norm_num) hpos).mp
    have : (2 : ℚ) ^ (53 : ℕ) < ((2 : ℕ) : ℚ) ^ (54 : ℤ) := by norm_num
    exact lt_of_le_of_lt hq this
  rcases lt_or_eq_of_le (Int.lt_add_one_iff.mp (by linarith : Int.log 2 |(n : ℚ)| < 53 + 1))
    with h52 | h53
  · -- the exponent of the last place is non-positive
    obtain ⟨d, hd⟩ : ∃ d : ℕ, Int.log 2 |(n : ℚ)| - 52 = -(d : ℤ) :=
      ⟨(52 - Int.log 2 |(n : ℚ)|).toNat, by omega⟩
    apply roundF64_exact _ (n * 2 ^ d)
    rw [hd, zpow_neg, zpow_natCast]
    push_cast
    field_simp
  · -- magnitude exactly `2^53`
    rw [h53] at hlog
    have hlog2 : (2 : ℚ) ^ (53 : ℕ) ≤ |(n : ℚ)| := by
      rw [← zpow_natCast]; exact_mod_cast hlog
    have habs : |(n : ℚ)| = 2 ^ 53 := le_antisymm hq hlog2
    have habsZ : |n| = 2 ^ 53 := by exact_mod_cast habs
    rcases abs_eq (by norm_num : (0 : ℤ) ≤ 2 ^ 53) |>.mp habsZ with h1 | h1
    · apply roundF64_exact _ (2 ^ 52)
      rw [h53, h1]; norm_num
    · apply roundF64_exact _ (-2 ^ 52)
      rw [h53, h1]; norm_num

/-! ## The quotient step of `Ind2sub` -/

theorem roundF64_recip_bounds (s : ℤ) (hs : 1 ≤ s) :
    (1 - 1 / 2 ^ 53 : ℚ) ≤ s * roundF64 (1 / (s : ℚ)) ∧
      (s : ℚ) * roundF64 (1 / (s : ℚ)) ≤ 1 + 1 / 2 ^ 53 := by
  have hsq : (1 : ℚ) ≤ s := by exact_mod_cast hs
  have hpos : (0 : ℚ) < s := by linarith
  have herr := roundF64_err (1 / (s : ℚ))
  rw [abs_of_pos (by positivity : (0 : ℚ) < 1 / s), abs_le] at herr
  obtain ⟨h1, h2⟩ := herr
  have e1 : (s : ℚ) * (1 / s) = 1 := by field_simp
  have e2 : (s : ℚ) * (1 / s / 2 ^ 53) = 1 / 2 ^ 53 := by field_simp
  have h3 := mul_le_mul_of_nonneg_left h1 hpos.le
  have h4 := mul_le_mul_of_nonneg_left h2 hpos.le
  rw [mul_sub, e1] at h4
  rw [mul_neg, mul_sub, e1, e2] at h3
  rw [e2] at h4
  constructor <;> linarith

/-- The rounded product `float64(k) * (1.0 / float64(s))` has the sign of `k` and,
scaled by `s`, at most twice its magnitude. -/
theorem quot_bounds (k s : ℤ) (hs : 1 ≤ s) :
    (0 ≤ k → 0 ≤ roundF64 (k * roundF64 (1 / (s : ℚ))) ∧
      (s : ℚ) * roundF64 (k * roundF64 (1 / (s : ℚ))) ≤ 2 * k) ∧
    (k ≤ 0 → roundF64 (k * roundF64 (1 / (s : ℚ))) ≤ 0 ∧
      2 * (k : ℚ) ≤ s * roundF64 (k * roundF64 (1 / (s : ℚ)))) := by
  have hsq : (1 : ℚ) ≤ s := by exact_mod_cast hs
  have hpos : (0 : ℚ) < s := by linarith
  obtain ⟨hr1, hr2⟩ := roundF64_recip_bounds s hs
  have hrpos : 0 < roundF64 (1 / (s : ℚ)) := by
    have : (0 : ℚ) < s * roundF64 (1 / (s : ℚ)) := by
      have : (0 : ℚ) < 1 - 1 / 2 ^ 53 := by norm_num
      linarith
    rcases lt_trichotomy 0 (roundF64 (1 / (s : ℚ))) with h0 | h0 | h0
    · exact h0
    · rw [← h0] at this; simp at this
    · have := mul_neg_of_pos_of_neg hpos h0; linarith
  have herr := roundF64_err (k * roundF64 (1 / (s : ℚ)))
  rw [abs_le] at herr
  obtain ⟨e1, e2⟩ := herr
  have hmul : ∀ a b : ℚ, a ≤ b → (s : ℚ) * a ≤ s * b :=
    fun a b h => mul_le_mul_of_nonneg_left h hpos.le
  constructor
  · intro hk
    have hkq : (0 : ℚ) ≤ k := by exact_mod_cast hk
    have hkr : 0 ≤ (k : ℚ) * roundF64 (1 / (s : ℚ)) := mul_nonneg hkq hrpos.le
    rw [abs_of_nonneg hkr] at e1 e2
    have hsk : (s : ℚ) * (k * roundF64 (1 / (s : ℚ))) ≤ k * (1 + 1 / 2 ^ 53) := by
      have := mul_le_mul_of_nonneg_left hr2 hkq; linarith
    have hsk0 : 0 ≤ (s : ℚ) * (k * roundF64 (1 / (s : ℚ))) := mul_nonneg hpos.le hkr
    constructor
    · have : (k : ℚ) * roundF64 (1 / (s : ℚ)) / 2 ^ 53 ≤ k * roundF64 (1 / (s : ℚ)) :=
        div_le_self hkr (by norm_num)
      linarith
    · have h1 := hmul _ _ (sub_le_iff_le_add.mp e2)
      rw [mul_add, ← mul_div_assoc] at h1
      have h2 : (s : ℚ) * (k * roundF64 (1 / (s : ℚ))) / 2 ^ 53 ≤
          k * (1 + 1 / 2 ^ 53) / 2 ^ 53 := div_le_div_of_nonneg_right hsk (by positivity)
      have h3 : (k : ℚ) * (1 + 1 / 2 ^ 53) / 2 ^ 53 + k * (1 + 1 / 2 ^ 53) ≤ 2 * k := by
        have : (1 + 1 / 2 ^ 53 : ℚ) / 2 ^ 53 + (1 + 1 / 2 ^ 53) ≤ 2 := by norm_num
        have := mul_le_mul_of_nonneg_left this hkq
        linarith
      linarith
  · intro hk
    have hkq : (k : ℚ) ≤ 0 := by exact_mod_cast hk
    have hkr : (k : ℚ) * roundF64 (1 / (s : ℚ)) ≤ 0 :=
      mul_nonpos_of_nonpos_of_nonneg hkq hrpos.le
    rw [abs_of_nonpos hkr] at e1 e2
    have hsk : (k : ℚ) * (1 + 1 / 2 ^ 53) ≤ s * (k * roundF64 (1 / (s : ℚ))) := by
      have := mul_le_mul_of_nonpos_left hr2 hkq; linarith
    have hsk0 : (s : ℚ) * (k * roundF64 (1 / (s : ℚ))) ≤ 0 :=
      mul_nonpos_of_nonneg_of_nonpos hpos.le hkr
    constructor
    · have : (k : ℚ) * roundF64 (1 / (s : ℚ)) ≤ k * roundF64 (1 / (s : ℚ)) / 2 ^ 53 := by
        rw [le_div_iff₀ (by positivity)]
        nlinarith
      linarith
    · have h1 := hmul _ _ (by linarith : (k : ℚ) * roundF64 (1 / (s : ℚ)) +
          (k * roundF64 (1 / (s : ℚ))) / 2 ^ 53 ≤ roundF64 (k * roundF64 (1 / (s : ℚ))))
      rw [mul_add, ← mul_div_assoc] at h1
      have h2 : (k : ℚ) * (1 + 1 / 2 ^ 53) / 2 ^ 53 ≤
          (s : ℚ) * (k * roundF64 (1 / (s : ℚ))) / 2 ^ 53 :=
        div_le_div_of_nonneg_right hsk (by positivity)
      have h3 : 2 * (k : ℚ) ≤ k * (1 + 1 / 2 ^ 53) / 2 ^ 53 + k * (1 + 1 / 2 ^ 53) := by
        have : (1 + 1 / 2 ^ 53 : ℚ) / 2 ^ 53 + (1 + 1 / 2 ^ 53) ≤ 2 := by norm_num
        have := mul_le_mul_of_nonpos_left this hkq
        linarith
      linarith

theorem truncInt_nonneg {x : ℚ} (h0 : 0 ≤ x) (h1 : x < 2 ^ 63) : truncInt x = some ⌊x⌋ := by
  have : (minInt : ℚ) ≤ x := by
    have : (minInt : ℚ) ≤ 0 := by norm_num [minInt]
    linarith
  simp [truncInt, this, h1, h0]

theorem truncInt_neg {x : ℚ} (h0 : x < 0) (h1 : -(2 ^ 63) ≤ x) : truncInt x = some ⌈x⌉ := by
  have hm : (minInt : ℚ) ≤ x := by
    have : (minInt : ℚ) = -(2 ^ 63) := by norm_num [minInt]
    linarith
  have h2 : x < 2 ^ 63 := by
    have : (0 : ℚ) < 2 ^ 63 := by norm_num
    linarith
  simp [truncInt, hm, h2, not_le.mpr h0]

theorem quotF64_eq (k s : ℤ) (hk : |k| ≤ 2 ^ 53) (hs : 1 ≤ s) (hs2 : s ≤ 2 ^ 53) :
    quotF64 k s = truncInt (roundF64 (k * roundF64 (1 / (s : ℚ)))) := by
  have hs0 : s ≠ 0 := by omega
  have hsabs : |s| ≤ 2 ^ 53 := by rw [abs_of_nonneg (by omega)]; exact hs2
  unfold quotF64
  rw [if_neg hs0, roundF64_intCast k hk, roundF64_intCast s hsabs]

/-- One iteration of `Ind2sub` on an offset of magnitude at most `2^53`: the
conversion is defined, the remaining offset does not grow and `s * l` stays far
from the limits of an `int`. -/
theorem quotF64_step (k s : ℤ) (hk : |k| ≤ 2 ^ 53) (hs : 1 ≤ s) (hs2 : s ≤ 2 ^ 53) :
    ∃ l, quotF64 k s = some l ∧ |k - s * l| ≤ |k| ∧ |s * l| ≤ 2 * |k| := by
  have hsq : (1 : ℚ) ≤ s := by exact_mod_cast hs
  have hpos : (0 : ℚ) < s := by linarith
  obtain ⟨hA, hB⟩ := quot_bounds k s hs
  rw [quotF64_eq k s hk hs hs2]
  rcases le_or_lt 0 k with hk0 | hk0
  · obtain ⟨hx0, hx1⟩ := hA hk0
    have hkabs : |k| = k := abs_of_nonneg hk0
    rw [hkabs] at hk ⊢
    have hkq : (k : ℚ) ≤ 2 ^ 53 := by exact_mod_cast hk
    have hxs : roundF64 (k * roundF64 (1 / (s : ℚ))) ≤ s * roundF64 (k * roundF64 (1 / (s : ℚ))) :=
      le_mul_of_one_le_left hx0 hsq
    have hx63 : roundF64 (k * roundF64 (1 / (s : ℚ))) < 2 ^ 63 := by
      have : (2 : ℚ) * 2 ^ 53 < 2 ^ 63 := by norm_num
      linarith
    have hl0 : 0 ≤ ⌊roundF64 (k * roundF64 (1 / (s : ℚ)))⌋ := Int.floor_nonneg.mpr hx0
    have hl1 : (s : ℚ) * ⌊roundF64 (k * roundF64 (1 / (s : ℚ)))⌋ ≤ 2 * k :=
      le_trans (mul_le_mul_of_nonneg_left (Int.floor_le _) hpos.le) hx1
    have hl2 : s * ⌊roundF64 (k * roundF64 (1 / (s : ℚ)))⌋ ≤ 2 * k := by exact_mod_cast hl1
    have hl3 : 0 ≤ s * ⌊roundF64 (k * roundF64 (1 / (s : ℚ)))⌋ := mul_nonneg (by omega) hl0
    refine ⟨⌊roundF64 (k * roundF64 (1 / (s : ℚ)))⌋, truncInt_nonneg hx0 hx63, ?_, ?_⟩
    · rw [abs_le]; constructor <;> omega
    · rw [abs_of_nonneg hl3]; exact hl2
  · obtain ⟨hx0, hx1⟩ := hB hk0.le
    have hkabs : |k| = -k := abs_of_neg hk0
    rw [hkabs] at hk ⊢
    have hkq : -(2 : ℚ) ^ 53 ≤ k := by
      have : -(2 : ℤ) ^ 53 ≤ k := by omega
      exact_mod_cast this
    rcases eq_or_lt_of_le hx0 with hz | hneg
    · refine ⟨0, ?_, ?_, ?_⟩
      · rw [hz]; simp [truncInt, minInt]
      · simp [abs_of_neg hk0]
      · simp; omega
    · have hxs : s * roundF64 (k * roundF64 (1 / (s : ℚ))) ≤ roundF64 (k * roundF64 (1 / (s : ℚ))) := by
        nlinarith
      have hx63 : -(2 ^ 63) ≤ roundF64 (k * roundF64 (1 / (s : ℚ))) := by
        have : -(2 : ℚ) ^ 63 ≤ 2 * -(2 : ℚ) ^ 53 := by norm_num
        linarith
      have hl0 : ⌈roundF64 (k * roundF64 (1 / (s : ℚ)))⌉ ≤ 0 := Int.ceil_le.mpr (by simpa using hx0)
      have hl1 : 2 * (k : ℚ) ≤ s * ⌈roundF64 (k * roundF64 (1 / (s : ℚ)))⌉ :=
        le_trans hx1 (mul_le_mul_of_nonneg_left (Int.le_ceil _) hpos.le)
      have hl2 : 2 * k ≤ s * ⌈roundF64 (k * roundF64 (1 / (s : ℚ)))⌉ := by exact_mod_cast hl1
      have hl3 : s * ⌈roundF64 (k * roundF64 (1 / (s : ℚ)))⌉ ≤ 0 :=
        mul_nonpos_of_nonneg_of_nonpos (by omega) hl0
      refine ⟨⌈roundF64 (k * roundF64 (1 / (s : ℚ)))⌉, truncInt_neg hneg hx63, ?_, ?_⟩
      · rw [abs_le]; constructor <;> omega
      · rw [abs_of_nonpos hl3]; omega

/-- With stride `1` the quotient step returns the offset itself. -/
theorem quotF64_one (k : ℤ) (hk : |k| ≤ 2 ^ 53) : quotF64 k 1 = some k := by
  have h1 : roundF64 ((1 : ℤ) : ℚ) = ((1 : ℤ) : ℚ) := roundF64_intCast 1 (by norm_num)
  have hkk := roundF64_intCast k hk
  have hq : |(k : ℚ)| ≤ 2 ^ 53 := by exact_mod_cast hk
  obtain ⟨hq1, hq2⟩ := abs_le.mp hq
  rw [quotF64_eq k 1 hk le_rfl (by norm_num)]
  simp only [Int.cast_one, div_one] at h1 ⊢
  rw [h1, mul_one, hkk]
  have hm : (minInt : ℚ) ≤ k := by
    have : (minInt : ℚ) = -(2 ^ 63) := by norm_num [minInt]
    rw [this]
    have : -(2 : ℚ) ^ 63 ≤ -(2 ^ 53) := by norm_num
    linarith
  have h2 : (k : ℚ) < 2 ^ 63 := by
    have : (2 : ℚ) ^ 53 < 2 ^ 63 := by norm_num
    linarith
  simp [truncInt, hm, h2]

/-! ## Round trip `Sub2ind ∘ Ind2sub` -/

theorem isInt_of_bounds {x : ℤ} (h1 : -(2 ^ 55) ≤ x) (h2 : x ≤ 2 ^ 55) : IsInt x := by
  unfold IsInt minInt maxInt
  omega

/-- Invariant of the two loops: while `Ind2sub` consumes the offset `k`,
`Sub2ind` rebuilds it in its accumulator, and `acc + k` stays the offset the
decomposition started from. -/
theorem roundtrip_aux (strides : Shape) (hs : ∀ s ∈ strides, 1 ≤ s ∧ s ≤ 2 ^ 53)
    (hlast : strides.getLast? = some 1) (K k acc : ℤ) (hK : |K| ≤ 2 ^ 53)
    (hk : |k| ≤ 2 ^ 53) (hacc : acc + k = K) (buf : Index)
    (hlen : strides.length ≤ buf.length) :
    ∃ ind, Ind2sub strides k buf = some ind ∧ Sub2indFrom acc strides ind = some K ∧
      ind.length = buf.length := by
  induction strides generalizing k acc buf with
  | nil => simp at hlast
  | cons s rest ih =>
    cases buf with
    | nil => simp at hlen
    | cons b bs =>
      have hKb := abs_le.mp hK
      have hkb := abs_le.mp hk
      have hlen2 : rest.length ≤ bs.length := by simpa using hlen
      cases rest with
      | nil =>
        have hs1 : s = 1 := by simpa using hlast
        subst hs1
        have hw0 : wrapInt k = k := wrapInt_of_isInt (isInt_of_bounds (by omega) (by omega))
        have hw : wrapInt (k - wrapInt (1 * k)) = 0 := by
          rw [one_mul, hw0, sub_self, wrapInt_zero]
        have ha : wrapInt (acc + wrapInt (1 * k)) = K := by
          rw [one_mul, hw0, hacc]
          exact wrapInt_of_isInt (isInt_of_bounds (by omega) (by omega))
        refine ⟨k :: bs, ?_, ?_, by simp⟩
        · simp only [Ind2sub, quotF64_one k hk, hw]
        · simp only [Sub2indFrom, ha]
      | cons t rest2 =>
        obtain ⟨hs1, hs2⟩ := hs s (List.mem_cons_self s _)
        obtain ⟨l, hq, hrem, hsl⟩ := quotF64_step k s hk hs1 hs2
        have hslb := abs_le.mp hsl
        have hremb := abs_le.mp hrem
        have habs : |k| ≤ 2 ^ 53 := hk
        have hw1 : wrapInt (s * l) = s * l :=
          wrapInt_of_isInt (isInt_of_bounds (by omega) (by omega))
        have hw2 : wrapInt (k - s * l) = k - s * l :=
          wrapInt_of_isInt (isInt_of_bounds (by omega) (by omega))
        have hw3 : wrapInt (acc + s * l) = acc + s * l :=
          wrapInt_of_isInt (isInt_of_bounds (by omega) (by omega))
        have hlast2 : (t :: rest2).getLast? = some 1 := by
          rw [List.getLast?_cons_cons] at hlast
          exact hlast
        obtain ⟨ind, h1, h2, h3⟩ := ih (fun u hu => hs u (List.mem_cons_of_mem s hu)) hlast2
          (k - s * l) (acc + s * l) (le_trans hrem hk) (by omega) bs hlen2
        refine ⟨l :: ind, ?_, ?_, by simp [h3]⟩
        · simp only [Ind2sub, hq, hw1, hw2, h1]
        · simp only [Sub2indFrom, hw1, hw3, h2]

/-! ## Strides of a shape whose size fits -/

theorem one_le_prod {l : List Int} (h : ∀ n ∈ l, 1 ≤ n) : 1 ≤ l.prod := by
  induction l with
  | nil => simp
  | cons a rest ih =>
    have ha := h a (List.mem_cons_self a rest)
    have hr := ih (fun n hn => h n (List.mem_cons_of_mem a hn))
    rw [List.prod_cons]
    nlinarith

theorem prod_drop_le {l : List Int} (h : ∀ n ∈ l, 1 ≤ n) (j : Nat) :
    (l.drop j).prod ≤ l.prod := by
  induction l generalizing j with
  | nil => simp
  | cons a rest ih =>
    have ha := h a (List.mem_cons_self a rest)
    have hrest : ∀ n ∈ rest, 1 ≤ n := fun n hn => h n (List.mem_cons_of_mem a hn)
    have hr := one_le_prod hrest
    cases j with
    | zero => simp
    | succ j =>
      have := ih hrest j
      rw [List.drop_succ_cons, List.prod_cons]
      nlinarith

theorem one_le_prod_drop {l : List Int} (h : ∀ n ∈ l, 1 ≤ n) (j : Nat) :
    1 ≤ (l.drop j).prod :=
  one_le_prod (fun n hn => h n (List.mem_of_mem_drop hn))

/-- Every stride of a shape with positive extents lies between `1` and the
product of the extents, provided that product is an `int`. -/
theorem ComputeStrides_mem_bounds {shape : Shape} (hpos : ∀ n ∈ shape, 1 ≤ n)
    (hfit : shape.prod ≤ maxInt) {s : Int} (hs : s ∈ ComputeStrides shape) :
    1 ≤ s ∧ s ≤ shape.prod := by
  obtain ⟨k, hk, rfl⟩ : ∃ k, k < shape.length ∧ s = mulAll 1 (shape.drop (k + 1)) := by
    simp only [ComputeStrides, List.mem_map, List.mem_range] at hs
    obtain ⟨k, hk, rfl⟩ := hs
    exact ⟨k, hk, rfl⟩
  have h1 := one_le_prod_drop hpos (k + 1)
  have h2 := prod_drop_le hpos (k + 1)
  have hI : IsInt (shape.drop (k + 1)).prod := by
    unfold IsInt minInt
    unfold maxInt at *
    omega
  rw [mulAll_eq isInt_one, one_mul, wrapInt_of_isInt hI]
  exact ⟨h1, h2⟩

theorem ComputeSize_of_fits {shape : Shape} (hne : shape ≠ []) (hpos : ∀ n ∈ shape, 1 ≤ n)
    (hfit : shape.prod ≤ maxInt) : ComputeSize shape = some shape.prod := by
  cases shape with
  | nil => exact absurd rfl hne
  | cons n rest =>
    have hn := hpos n (List.mem_cons_self n rest)
    have hrest := one_le_prod (fun m hm => hpos m (List.mem_cons_of_mem n hm))
    have h1 := one_le_prod hpos
    rw [List.prod_cons] at hfit h1
    have hnI : IsInt n := by
      unfold IsInt minInt
      unfold maxInt at *
      constructor
      · omega
      · nlinarith
    have hI : IsInt (n * rest.prod) := by
      unfold IsInt minInt
      unfold maxInt at *
      omega
    simp only [ComputeSize, mulAll_eq hnI, wrapInt_of_isInt hI, List.prod_cons]

/-! ## Concrete evaluations of the quotient step -/

theorem roundEven_tie_even (m : ℤ) (hm : m % 2 = 0) : roundEven ((m : ℚ) + 1 / 2) = m := by
  have hf : ⌊(m : ℚ) + 1 / 2⌋ = m := by
    rw [Int.floor_eq_iff]; constructor <;> norm_num
  unfold roundEven
  rw [hf]
  have e : (m : ℚ) + 1 / 2 - m = 1 / 2 := by ring
  rw [e, if_neg (lt_irrefl _), if_neg (lt_irrefl _), if_pos hm]

/-- The reciprocal `1.0 / 49.0` in binary64. -/
theorem roundF64_recip_49 : roundF64 (1 / 49) = 5882252574524729 * 2 ^ (-58 : ℤ) := by
  have h := roundF64_eq_of (1 / 49) (-58) 5882252574524729 (by norm_num [abs_of_pos])
    (by norm_num [abs_of_pos])
    (roundEven_eq_of_abs_lt _ _ (by
      rw [abs_lt]; constructor <;> norm_num))
  simpa using h

/-- The product `49.0 * (1.0 / 49.0)` in binary64 is the largest value below one. -/
theorem roundF64_49_mul_recip :
    roundF64 (49 * roundF64 (1 / 49)) = 9007199254740991 * 2 ^ (-53 : ℤ) := by
  rw [roundF64_recip_49]
  have h := roundF64_eq_of (49 * (5882252574524729 * 2 ^ (-58 : ℤ))) (-53) 9007199254740991
    (by norm_num [abs_of_pos]) (by norm_num [abs_of_pos])
    (roundEven_eq_of_abs_lt _ _ (by
      rw [abs_lt]; constructor <;> norm_num))
  simpa using h

/-- At stride `49` the quotient step maps the offset `49` to `0`, not to `1`. -/
theorem quotF64_49_49 : quotF64 49 49 = some 0 := by
  rw [quotF64_eq 49 49 (by norm_num) (by norm_num) (by norm_num)]
  have h := roundF64_49_mul_recip
  simp only [Int.cast_ofNat]
  rw [h]
  have hf : ⌊(9007199254740991 * 2 ^ (-53 : ℤ) : ℚ)⌋ = 0 := by
    rw [Int.floor_eq_iff]; constructor <;> norm_num
  rw [truncInt_nonneg (by norm_num) (by norm_num), hf]

/-- The conversion `float64(2^53 + 1)` rounds to `2^53`. -/
theorem roundF64_2_53_succ : roundF64 9007199254740993 = 9007199254740992 := by
  have h := roundF64_eq_of 9007199254740993 1 4503599627370496 (by norm_num [abs_of_pos])
    (by norm_num [abs_of_pos])
    (by
      have := roundEven_tie_even 4503599627370496 (by decide)
      have e : (9007199254740993 : ℚ) / 2 ^ (1 : ℤ) = ((4503599627370496 : ℤ) : ℚ) + 1 / 2 := by
        norm_num
      rw [e, this])
  rw [h]; norm_num

/-- At stride `1` the quotient step maps the offset `2^53 + 1` to `2^53`. -/
theorem quotF64_2_53_succ : quotF64 9007199254740993 1 = some 9007199254740992 := by
  have h1 : roundF64 ((1 : ℤ) : ℚ) = ((1 : ℤ) : ℚ) := roundF64_intCast 1 (by norm_num)
  have h2 : roundF64 ((9007199254740992 : ℤ) : ℚ) = ((9007199254740992 : ℤ) : ℚ) :=
    roundF64_intCast _ (by norm_num)
  simp only [Int.cast_one, Int.cast_ofNat] at h1 h2
  unfold quotF64
  rw [if_neg (by decide)]
  simp only [Int.cast_one, Int.cast_ofNat]
  rw [h1, div_one, h1, mul_one, roundF64_2_53_succ, h2]
  have hf : ⌊(9007199254740992 : ℚ)⌋ = 9007199254740992 := by
    rw [Int.floor_eq_iff]; constructor <;> norm_num
  rw [truncInt_nonneg (by norm_num) (by norm_num), hf]

/-- The decomposition of the offset `49` along the strides `{49, 1}`. -/
theorem Ind2sub_49 (b0 b1 : Int) : Ind2sub [49, 1] 49 [b0, b1] = some [0, 49] := by
  have hw : wrapInt (49 - wrapInt (49 * 0)) = 49 := by decide
  have hw2 : wrapInt (49 - wrapInt (1 * 49)) = 0 := by decide
  simp only [Ind2sub, quotF64_49_49, hw, quotF64_one 49 (by norm_num), hw2]

/-! ## Claims on index conversion -/

/-- C1 (as amended): for every shape of rank at least one whose extents are all
at least one and whose number of elements is at most `2^53`, with
`strides = ComputeStrides shape`, for every offset `k` in `[0, ComputeSize shape)`
and every buffer of length rank, `Ind2sub` returns an index of length rank and
`Sub2ind` maps that index back to `k`. -/
theorem Sub2ind_Ind2sub_roundtrip (shape : Shape) (hne : shape ≠ [])
    (hpos : ∀ n ∈ shape, 1 ≤ n) (hfit : shape.prod ≤ 2 ^ 53) (size k : Int)
    (hsize : ComputeSize shape = some size) (hk0 : 0 ≤ k) (hk : k < size)
    (buf : Index) (hbuf : buf.length = shape.length) :
    ∃ ind, Ind2sub (ComputeStrides shape) k buf = some ind ∧ ind.length = shape.length ∧
      Sub2ind (ComputeStrides shape) ind = some k := by
  have hmax : shape.prod ≤ maxInt := by unfold maxInt; omega
  rw [ComputeSize_of_fits hne hpos hmax] at hsize
  have hsz : shape.prod = size := by simpa using hsize
  have hkabs : |k| ≤ 2 ^ 53 := by rw [abs_of_nonneg hk0]; omega
  obtain ⟨ind, h1, h2, h3⟩ := roundtrip_aux (ComputeStrides shape)
    (fun s hs => by
      have := ComputeStrides_mem_bounds hpos hmax hs
      exact ⟨this.1, le_trans this.2 hfit⟩)
    (ComputeStrides_last shape hne) k k 0 hkabs hkabs (zero_add k) buf
    (by rw [ComputeStrides_length, hbuf])
  exact ⟨ind, h1, by rw [h3, hbuf], h2⟩

/-- Instance of the amended C1 at the shape `{2,49}` and the offset `49`. -/
theorem Sub2ind_Ind2sub_roundtrip_witness :
    ∃ ind, Ind2sub (ComputeStrides [2, 49]) 49 [0, 0] = some ind ∧
      ind.length = ([2, 49] : Shape).length ∧
      Sub2ind (ComputeStrides [2, 49]) ind = some 49 :=
  Sub2ind_Ind2sub_roundtrip [2, 49] (by decide) (by decide) (by decide) 98 49
    (by decide) (by decide) (by decide) [0, 0] (by decide)

/-- C1 (as stated) fails at the one-axis shape of `2^53 + 2` elements and the
offset `k = 2^53 + 1`: the conversion of `k` to `float64` rounds to `2^53`, so
`Ind2sub` returns `{2^53}` and `Sub2ind` maps it to `2^53`, not to `k`. -/
theorem roundtrip_fails_beyond_float64 :
    ComputeSize [9007199254740994] = some 9007199254740994 ∧
    (0 : Int) ≤ 9007199254740993 ∧ (9007199254740993 : Int) < 9007199254740994 ∧
    Ind2sub (ComputeStrides [9007199254740994]) 9007199254740993 [0]
      = some [9007199254740992] ∧
    Sub2ind (ComputeStrides [9007199254740994]) [9007199254740992]
      = some 9007199254740992 ∧
    Sub2ind (ComputeStrides [9007199254740994]) [9007199254740992]
      ≠ some 9007199254740993 := by
  have hs : ComputeStrides [9007199254740994] = [1] := by decide
  have hw : wrapInt (9007199254740993 - wrapInt (1 * 9007199254740992)) = 1 := by
    norm_num [wrapInt]
  refine ⟨by simp [ComputeSize, mulAll], by norm_num, by norm_num, ?_,
    by rw [hs]; norm_num [Sub2ind, Sub2indFrom, wrapInt],
    by rw [hs]; norm_num [Sub2ind, Sub2indFrom, wrapInt]⟩
  rw [hs, Ind2sub, quotF64_2_53_succ]
  simp only []
  rw [hw, Ind2sub]

/-- C2 at the shape `{2,49}`: the coordinate `{1,0}` is valid and has the linear
offset `49`, but `Ind2sub` maps `49` to `{0,49}`, because the binary64 product
`49 * (1/49)` is below one and is truncated to zero. -/
theorem Ind2sub_Sub2ind_not_inverse :
    ComputeStrides [2, 49] = [49, 1] ∧
    Sub2ind (ComputeStrides [2, 49]) [1, 0] = some 49 ∧
    Ind2sub (ComputeStrides [2, 49]) 49 [0, 0] = some [0, 49] ∧
    Ind2sub (ComputeStrides [2, 49]) 49 [0, 0] ≠ some [1, 0] := by
  have hs : ComputeStrides [2, 49] = [49, 1] := by decide
  refine ⟨hs, by rw [hs]; decide, ?_, ?_⟩
  · rw [hs]; exact Ind2sub_49 0 0
  · rw [hs, Ind2sub_49 0 0]; decide

/-- C3 at the shape `{2,49}` (size `98`) and the offset `49`: `Ind2sub` returns
`{0,49}`, whose first entry is not the integer quotient `49 / 49 = 1` and whose
second entry `49` is not below the extent `49` of its axis. -/
theorem Ind2sub_index_out_of_range :
    ComputeSize [2, 49] = some 98 ∧
    Ind2sub (ComputeStrides [2, 49]) 49 [0, 0] = some [0, 49] ∧
    (49 : Int) / 49 = 1 ∧ ¬ ((49 : Int) < 49) := by
  have hs : ComputeStrides [2, 49] = [49, 1] := by decide
  refine ⟨by decide, ?_, by decide, by decide⟩
  rw [hs]; exact Ind2sub_49 0 0

/-! ## `Sub2ind` as a dot product -/

theorem wrapInt_add_left (a b : Int) : wrapInt (wrapInt a + b) = wrapInt (a + b) :=
  wrapInt_congr ((wrapInt_modEq a).add_right b)

theorem wrapInt_add_right (a b : Int) : wrapInt (a + wrapInt b) = wrapInt (a + b) :=
  wrapInt_congr ((wrapInt_modEq b).add_left a)

theorem Sub2indFrom_eq (strides : Shape) (ind : Index) (acc : Int) (hacc : IsInt acc)
    (hlen : strides.length ≤ ind.length) :
    Sub2indFrom acc strides ind = some (wrapInt (acc + dot strides ind)) := by
  induction strides generalizing ind acc with
  | nil => simp [Sub2indFrom, dot, wrapInt_of_isInt hacc]
  | cons s rest ih =>
    cases ind with
    | nil => simp at hlen
    | cons i ind =>
      have hlen2 : rest.length ≤ ind.length := by simpa using hlen
      rw [Sub2indFrom, ih ind _ (isInt_wrapInt _) hlen2, wrapInt_add_left, dot]
      congr 1
      apply wrapInt_congr
      have h := ((wrapInt_modEq (s * i)).add_left acc).add_right (dot rest ind)
      rw [add_assoc acc (s * i)] at h
      exact h

theorem isInt_zero : IsInt 0 := by decide

theorem Sub2ind_eq (strides : Shape) (ind : Index) (hlen : strides.length ≤ ind.length) :
    Sub2ind strides ind = some (wrapInt (dot strides ind)) := by
  rw [Sub2ind, Sub2indFrom_eq strides ind 0 isInt_zero hlen, zero_add]


/-- Row-major offsets stay inside the array: for a valid coordinate the exact
dot product with the strides lies in `[0, product of the extents)`. -/
theorem dot_ComputeStrides_bounds (shape : Shape) (hpos : ∀ n ∈ shape, 1 ≤ n)
    (hfit : shape.prod ≤ maxInt) (ind : Index) (hind : ValidIndex shape ind) :
    0 ≤ dot (ComputeStrides shape) ind ∧ dot (ComputeStrides shape) ind < shape.prod := by
  induction shape generalizing ind with
  | nil =>
    cases ind with
    | nil => simp [ComputeStrides, dot]
    | cons i ind => simp [ValidIndex] at hind
  | cons n rest ih =>
    cases ind with
    | nil => simp [ValidIndex] at hind
    | cons i ind =>
      obtain ⟨hi0, hin, hrest⟩ := hind
      have hn := hpos n (List.mem_cons_self n rest)
      have hposr : ∀ m ∈ rest, 1 ≤ m := fun m hm => hpos m (List.mem_cons_of_mem n hm)
      have hr1 := one_le_prod hposr
      rw [List.prod_cons] at hfit ⊢
      have hfitr : rest.prod ≤ maxInt := by nlinarith
      obtain ⟨h0, h1⟩ := ih hposr hfitr ind hrest
      have hI : IsInt rest.prod := by
        unfold IsInt minInt
        unfold maxInt at *
        omega
      rw [ComputeStrides_cons, dot, mulAll_eq isInt_one, one_mul, wrapInt_of_isInt hI]
      constructor
      · have := mul_nonneg (by omega : (0 : Int) ≤ rest.prod) hi0
        omega
      · have : rest.prod * i ≤ rest.prod * (n - 1) :=
          mul_le_mul_of_nonneg_left (by omega) (by omega)
        nlinarith

theorem ValidIndex_length {shape : Shape} {ind : Index} (h : ValidIndex shape ind) :
    ind.length = shape.length := by
  induction shape generalizing ind with
  | nil =>
    cases ind with
    | nil => rfl
    | cons i ind => simp [ValidIndex] at h
  | cons n rest ih =>
    cases ind with
    | nil => simp [ValidIndex] at h
    | cons i ind => simp [ih h.2.2]

theorem dot_addIndex (s a b : List Int) (ha : a.length = s.length) (hb : b.length = s.length) :
    dot s (addIndex a b) = dot s a + dot s b := by
  induction s generalizing a b with
  | nil => simp [dot]
  | cons x s ih =>
    cases a with
    | nil => simp at ha
    | cons y a =>
      cases b with
      | nil => simp at hb
      | cons z b =>
        have := ih a b (by simpa using ha) (by simpa using hb)
        simp only [addIndex, List.zipWith_cons_cons, dot] at this ⊢
        rw [this]; ring

theorem dot_replicate_append (s : List Int) (m : Nat) (idx : List Int) (hm : m ≤ s.length) :
    dot s (List.replicate m 0 ++ idx) = dot (s.drop m) idx := by
  induction m generalizing s with
  | zero => simp
  | succ m ih =>
    cases s with
    | nil => simp at hm
    | cons x s =>
      have := ih s (by simpa using hm)
      simp only [List.replicate_succ, List.cons_append, dot, List.drop_succ_cons,
        mul_zero, zero_add]
      exact this

/-- Linearity behind `View`: the parent's offset of `start + idx'` is the offset
of `start` plus the offset of `idx` under the trailing strides. -/
theorem dot_view (strides : Shape) (start idx : Index) (hs : start.length = strides.length)
    (hr : idx.length ≤ strides.length) :
    dot strides (addIndex start (padIndex strides.length idx)) =
      dot strides start + dot (strides.drop (strides.length - idx.length)) idx := by
  rw [dot_addIndex strides start _ hs (by simp [padIndex]; omega), padIndex,
    dot_replicate_append strides _ idx (by omega)]

/-! ## Views -/

/-- A view's buffer is the parent's buffer from the offset `o` on: the same
elements of the backing array, read at positions shifted by `o`. -/
theorem Slice.get_sliceFrom (mem : List Float64) (d : Slice) (o : Int) (h0 : 0 ≤ o)
    (j : Int) (hj : 0 ≤ j) :
    Slice.get mem ⟨d.off + o.toNat, d.len - o.toNat⟩ j = Slice.get mem d (o + j) := by
  unfold Slice.get
  by_cases h : o + j < d.len
  · have h1 : j < ((d.len - o.toNat : Nat) : Int) := by omega
    have h2 : d.off + o.toNat + j.toNat = d.off + (o + j).toNat := by omega
    simp [hj, h, h1, h2, add_nonneg h0 hj]
  · have h1 : ¬ j < ((d.len - o.toNat : Nat) : Int) := by omega
    simp [h, h1]

/-- C6: for every well-formed parent array, every valid start coordinate of full
parent rank and every sub-shape of rank `1 ≤ r ≤` parent rank, `View(start, shape)`
returns an array of rank `r`, of the given shape, of size `ComputeSize(shape)`,
whose strides are the last `r` strides of the parent and whose buffer is the
parent's buffer from the offset `o = Sub2ind(parent.strides, start)`, which lies
in `[0, size)`.  Consequently the view's element at a non-negative offset `j` is
the parent's element at `o + j`, and for every coordinate `idx` of rank `r`, the
view's element at `Sub2ind(view.strides, idx)` is the parent's element at
`Sub2ind(parent.strides, start + idx')`, `idx'` being `idx` left-padded with
zeros (both sides being the panic `none` when the offset leaves the buffer). -/
theorem View_spec (mem : List Float64) (p : ndarray) (hwf : WellFormed mem p)
    (start : Index) (hstart : ValidIndex p.shape start)
    (shape : Shape) (hne : shape ≠ []) (hr : shape.length ≤ p.shape.length) :
    ∃ o v, Sub2ind p.strides start = some o ∧ 0 ≤ o ∧ o < p.size ∧
      p.View start shape = some v ∧
      v.ndims = shape.length ∧ v.shape = shape ∧ ComputeSize shape = some v.size ∧
      v.strides = p.strides.drop (p.strides.length - shape.length) ∧
      v.data = ⟨p.data.off + o.toNat, p.data.len - o.toNat⟩ ∧
      (∀ j, 0 ≤ j → v.data.get mem j = p.data.get mem (o + j)) ∧
      (∀ idx j, idx.length = shape.length → Sub2ind v.strides idx = some j → 0 ≤ j →
        v.data.get mem j =
          (Sub2ind p.strides (addIndex start (padIndex p.shape.length idx))).bind
            (p.data.get mem)) := by
  obtain ⟨hnep, hpos, hnd, hndmax, hstr, hsize, hmax, hlen, hmem⟩ := hwf
  have hfit : p.shape.prod ≤ maxInt := hsize ▸ hmax
  have hsl : start.length = p.strides.length := by
    rw [hstr, ComputeStrides_length, ValidIndex_length hstart]
  have hstl : p.strides.length = p.shape.length := by rw [hstr, ComputeStrides_length]
  obtain ⟨ho0, ho1⟩ := dot_ComputeStrides_bounds p.shape hpos hfit start hstart
  rw [← hstr] at ho0 ho1
  rw [← hsize] at ho1
  have hoI : IsInt (dot p.strides start) := by
    unfold IsInt minInt
    unfold maxInt at *
    omega
  have hsub : Sub2ind p.strides start = some (dot p.strides start) := by
    rw [Sub2ind_eq _ _ (by omega), wrapInt_of_isInt hoI]
  have hslice : p.data.sliceFrom (dot p.strides start) =
      some ⟨p.data.off + (dot p.strides start).toNat, p.data.len - (dot p.strides start).toNat⟩ := by
    unfold Slice.sliceFrom
    rw [if_pos ⟨ho0, by omega⟩]
  have hw : wrapInt (p.ndims - shape.length) = ((p.strides.length - shape.length : Nat) : Int) := by
    rw [wrapInt_of_isInt]
    · omega
    · unfold IsInt minInt
      unfold maxInt at *
      omega
  obtain ⟨sz, hsz⟩ : ∃ sz, ComputeSize shape = some sz := by
    cases shape with
    | nil => exact absurd rfl hne
    | cons n rest => exact ⟨_, rfl⟩
  have hview : p.View start shape = some
      { data := ⟨p.data.off + (dot p.strides start).toNat,
                 p.data.len - (dot p.strides start).toNat⟩,
        ndims := shape.length, shape := shape,
        strides := p.strides.drop (p.strides.length - shape.length),
        size := sz, it := none } := by
    unfold ndarray.View
    simp only [hsub, hslice, hw, hsz]
    rw [if_pos ⟨by omega, by omega⟩]
    simp
  refine ⟨dot p.strides start, _, hsub, ho0, ho1, hview, rfl, rfl, hsz, rfl, rfl, ?_, ?_⟩
  · intro j hj
    exact Slice.get_sliceFrom mem p.data _ ho0 j hj
  · intro idx j hidx hj hj0
    simp only at hj ⊢
    have hvl : (p.strides.drop (p.strides.length - shape.length)).length ≤ idx.length := by
      simp; omega
    rw [Sub2ind_eq _ _ hvl] at hj
    have hjeq : wrapInt (dot (p.strides.drop (p.strides.length - shape.length)) idx) = j := by
      simpa using hj
    have hP : Sub2ind p.strides (addIndex start (padIndex p.shape.length idx)) =
        some (wrapInt (dot p.strides start + j)) := by
      rw [Sub2ind_eq _ _ (by simp [addIndex, padIndex]; omega), ← hstl,
        dot_view p.strides start idx hsl (by omega), hidx, ← hjeq, wrapInt_add_right]
    rw [hP, Option.some_bind]
    have hjI := isInt_wrapInt (dot (p.strides.drop (p.strides.length - shape.length)) idx)
    rw [hjeq] at hjI
    by_cases hov : dot p.strides start + j ≤ maxInt
    · have hI : IsInt (dot p.strides start + j) := by
        unfold IsInt minInt
        unfold maxInt at *
        omega
      rw [wrapInt_of_isInt hI]
      exact Slice.get_sliceFrom mem p.data _ ho0 j hj0
    · have hneg : wrapInt (dot p.strides start + j) < 0 := by
        unfold IsInt minInt maxInt at hjI
        unfold wrapInt
        unfold maxInt at *
        omega
      have h1 : ¬ j < ((p.data.len - (dot p.strides start).toNat : Nat) : Int) := by
        unfold maxInt at *
        omega
      unfold Slice.get
      simp [h1, not_le.mpr hneg]

theorem exampleParent_wellFormed : WellFormed [1, 2, 3, 4] exampleParent := by
  unfold WellFormed exampleParent
  refine ⟨by decide, by decide, by decide, by decide, by decide, by decide, by decide,
    by decide, by decide⟩

/-- Instance of C6 at the spec's example: the view of the `{2,2}` array over
`[1,2,3,4]` at start `{1,0}` with shape `{1,2}` starts at offset `2` and holds
`[3,4]`. -/
theorem View_spec_witness :
    WellFormed [1, 2, 3, 4] exampleParent ∧ ValidIndex exampleParent.shape [1, 0] ∧
    ∃ v, exampleParent.View [1, 0] [1, 2] = some v ∧ v.data = ⟨2, 2⟩ ∧
      v.data.get [1, 2, 3, 4] 0 = some 3 ∧ v.data.get [1, 2, 3, 4] 1 = some 4 := by
  obtain ⟨o, v, ho, _, _, hv, _, _, _, _, hd, hget, _⟩ :=
    View_spec [1, 2, 3, 4] exampleParent exampleParent_wellFormed [1, 0] (by decide)
      [1, 2] (by decide) (by decide)
  have ho2 : o = 2 := by
    have h : Sub2ind exampleParent.strides [1, 0] = some 2 := by decide
    rw [h] at ho
    exact (Option.some.inj ho).symm
  subst ho2
  refine ⟨exampleParent_wellFormed, by decide, v, hv, hd, ?_, ?_⟩
  · rw [hget 0 (by decide)]
    simp [Slice.get, exampleParent]
  · rw [hget 1 (by decide)]
    simp [Slice.get, exampleParent]

/-- What a successful `View` fixes about the view's buffer. -/
theorem View_data {p v : ndarray} {start : Index} {shape : Shape}
    (hv : p.View start shape = some v) :
    ∃ o, Sub2ind p.strides start = some o ∧ 0 ≤ o ∧ o ≤ p.data.len ∧
      v.data = ⟨p.data.off + o.toNat, p.data.len - o.toNat⟩ := by
  unfold ndarray.View at hv
  cases ho : Sub2ind p.strides start with
  | none => simp [ho] at hv
  | some o =>
    rw [ho] at hv
    simp only at hv
    by_cases hb : 0 ≤ o ∧ o ≤ p.data.len
    · refine ⟨o, rfl, hb.1, hb.2, ?_⟩
      simp only [Slice.sliceFrom, if_pos hb] at hv
      split_ifs at hv
      cases hsz : ComputeSize shape with
      | none => simp [hsz] at hv
      | some sz =>
        rw [hsz] at hv
        simp only [Option.some.injEq] at hv
        rw [← hv]
    · simp [Slice.sliceFrom, if_neg hb] at hv

/-- C7: a write through a view is a write to the parent's storage.  With
`o = Sub2ind(parent.strides, start)`, writing `x` at offset `j` of the view's
buffer succeeds, leaves the parent's buffer holding `x` at offset `o + j` and
every other element of the parent unchanged; and a write of `x` to the parent's
buffer at `o + j` is read back through the view at `j`. -/
theorem View_write_through (mem : List Float64) (p v : ndarray) (start : Index)
    (shape : Shape) (o : Int) (ho : Sub2ind p.strides start = some o)
    (hv : p.View start shape = some v) (hmem : p.data.off + p.data.len ≤ mem.length)
    (j : Int) (hj0 : 0 ≤ j) (hj : j < v.data.len) (x : Float64) :
    (∃ mem1, v.data.set mem j x = some mem1 ∧ mem1.length = mem.length ∧
      p.data.get mem1 (o + j) = some x ∧
      ∀ i, i ≠ o + j → p.data.get mem1 i = p.data.get mem i) ∧
    (∃ mem2, p.data.set mem (o + j) x = some mem2 ∧ v.data.get mem2 j = some x) := by
  obtain ⟨o1, ho1, h0, hle, hd⟩ := View_data hv
  rw [ho] at ho1
  obtain rfl : o = o1 := Option.some.inj ho1
  rw [hd] at hj ⊢
  simp only at hj
  have hin : o + j < p.data.len := by omega
  have hidx : p.data.off + o.toNat + j.toNat = p.data.off + (o + j).toNat := by omega
  have hlt : p.data.off + (o + j).toNat < mem.length := by omega
  constructor
  · refine ⟨mem.set (p.data.off + (o + j).toNat) x, ?_, by simp, ?_, ?_⟩
    · simp [Slice.set, hj0, hj, hidx]
    · simp [Slice.get, add_nonneg h0 hj0, hin, List.getElem?_set_self hlt]
    · intro i hi
      unfold Slice.get
      by_cases hc : 0 ≤ i ∧ i < p.data.len
      · rw [if_pos hc, if_pos hc, List.getElem?_set_ne (by omega)]
      · rw [if_neg hc, if_neg hc]
  · refine ⟨mem.set (p.data.off + (o + j).toNat) x, ?_, ?_⟩
    · simp [Slice.set, add_nonneg h0 hj0, hin]
    · simp [Slice.get, hj0, hj, hidx, List.getElem?_set_self hlt]

/-- Instance of C7 at the spec's example: writing `9` to the first element of
the view reaches the parent's element at linear offset `2`. -/
theorem View_write_through_witness :
    (∃ mem1, exampleView.data.set [1, 2, 3, 4] 0 9 = some mem1 ∧
      mem1.length = ([1, 2, 3, 4] : List Float64).length ∧
      exampleParent.data.get mem1 (2 + 0) = some 9 ∧
      ∀ i, i ≠ 2 + 0 → exampleParent.data.get mem1 i = exampleParent.data.get [1, 2, 3, 4] i) ∧
    (∃ mem2, exampleParent.data.set [1, 2, 3, 4] (2 + 0) 9 = some mem2 ∧
      exampleView.data.get mem2 0 = some 9) :=
  View_write_through [1, 2, 3, 4] exampleParent exampleView [1, 0] [1, 2] 2 (by decide)
    (by decide) (by decide) 0 (by decide) (by decide) 9

/-! ## Reshape -/

theorem foldl_set_range (f : Nat → Int) (st : List Int) (m : Nat) (hm : m ≤ st.length) :
    (List.range m).foldl (fun strides k => strides.set k (f k)) st =
      (List.range m).map f ++ st.drop m := by
  induction m with
  | zero => simp
  | succ m ih =>
    have hlt : m < st.length := hm
    rw [List.range_succ, List.foldl_append, ih (Nat.le_of_lt hlt)]
    simp only [List.foldl_cons, List.foldl_nil, List.map_append, List.map_cons, List.map_nil,
      List.append_assoc, List.singleton_append]
    rw [List.set_append]
    simp only [List.length_map, List.length_range, lt_self_iff_false, if_false, Nat.sub_self]
    rw [List.drop_eq_getElem_cons hlt, List.set_cons_zero]

/-- The stride loop inlined in `Reshape` computes the row-major strides. -/
theorem reshapeStrides_eq (shape : Shape) : reshapeStrides shape = ComputeStrides shape := by
  unfold reshapeStrides ComputeStrides
  rw [foldl_set_range _ shape shape.length le_rfl]
  simp

theorem ComputeSize_isSome {shape : Shape} (hne : shape ≠ []) :
    ∃ n, ComputeSize shape = some n := by
  cases shape with
  | nil => exact absurd rfl hne
  | cons n rest => exact ⟨_, rfl⟩

/-- C8: for every array and every `newShape` with
`ComputeSize(newShape) == array.size` (which is defined only for a non-empty
`newShape`), `Reshape` returns, and the array then has
shape `newShape`, strides `ComputeStrides(newShape)` and rank `len(newShape)`,
while its size and its buffer (the same window on the same, unwritten backing
array, hence the same flat data sequence) are those from before the call. -/
theorem Reshape_spec (arr : ndarray) (newShape : Shape)
    (hsize : ComputeSize newShape = some arr.size) :
    (Reshape arr newShape).ok = true ∧
    (Reshape arr newShape).array.shape = newShape ∧
    (Reshape arr newShape).array.strides = ComputeStrides newShape ∧
    (Reshape arr newShape).array.ndims = newShape.length ∧
    (Reshape arr newShape).array.size = arr.size ∧
    (Reshape arr newShape).array.data = arr.data ∧
    ∀ (mem : List Float64) (j : Int),
      (Reshape arr newShape).array.data.get mem j = arr.data.get mem j := by
  unfold Reshape
  simp [hsize, reshapeStrides_eq]

/-- C9: for every array and every non-empty `newShape`, `Reshape` fails exactly
when `ComputeSize(newShape)` differs from the array's size, and when it fails
the array (shape, strides, rank, size, buffer, iterator) is as before. -/
theorem Reshape_fails_iff (arr : ndarray) (newShape : Shape) (hne : newShape ≠ []) :
    ((Reshape arr newShape).ok = false ↔ ComputeSize newShape ≠ some arr.size) ∧
    ((Reshape arr newShape).ok = false → (Reshape arr newShape).array = arr) := by
  obtain ⟨n, hn⟩ := ComputeSize_isSome hne
  unfold Reshape
  rw [hn]
  by_cases h : arr.size = n
  · simp [h]
  · have h2 : n ≠ arr.size := fun e => h e.symm
    simp [h, h2]

/-- Instance of C8 at the spec's example: the `{2,3}` array over `[1..6]`
reshaped to `{3,2}` has strides `{2,1}` and reads the same flat sequence. -/
theorem Reshape_spec_witness :
    ComputeSize [3, 2] = some exampleMatrix.size ∧
    (Reshape exampleMatrix [3, 2]).ok = true ∧
    (Reshape exampleMatrix [3, 2]).array.strides = ComputeStrides [3, 2] ∧
    ∀ j, (Reshape exampleMatrix [3, 2]).array.data.get [1, 2, 3, 4, 5, 6] j =
      exampleMatrix.data.get [1, 2, 3, 4, 5, 6] j :=
  ⟨by decide, (Reshape_spec exampleMatrix [3, 2] (by decide)).1,
    (Reshape_spec exampleMatrix [3, 2] (by decide)).2.2.1,
    fun j => (Reshape_spec exampleMatrix [3, 2] (by decide)).2.2.2.2.2.2 _ j⟩

/-- Instance of C9: reshaping the six-element `{2,3}` array to `{4,2}` fails and
leaves it as it was. -/
theorem Reshape_fails_iff_witness :
    ([4, 2] : Shape) ≠ [] ∧ (Reshape exampleMatrix [4, 2]).ok = false ∧
    (Reshape exampleMatrix [4, 2]).array = exampleMatrix :=
  ⟨by decide, (Reshape_fails_iff exampleMatrix [4, 2] (by decide)).1.mpr (by decide),
    (Reshape_fails_iff exampleMatrix [4, 2] (by decide)).2
      ((Reshape_fails_iff exampleMatrix [4, 2] (by decide)).1.mpr (by decide))⟩

/-! ## Construction -/

/-- C10 (as stated) fails: `Zeros` has no check of the extents.  For the shape
`{0}` it returns an array of size `0` over an empty buffer, and likewise for
`{2,0}`; for `{-1,-1}`, whose computed size is `1`, it returns an array of one
element. -/
theorem Zeros_accepts_nonpositive_extents :
    Zeros [0] = some ([], { data := ⟨0, 0⟩, ndims := 1, shape := [0], strides := [1],
                            size := 0, it := some { shape := [0], strides := [1] } }) ∧
    (Zeros [2, 0]).isSome = true ∧ (Zeros [-1, -1]).isSome = true := by
  refine ⟨?_, ?_, ?_⟩ <;> rfl

/-- C10 (as amended): `Zeros` does not validate the extents of its shape.  It
fails for the empty shape (where `ComputeSize` indexes `shape[0]`) and for every
shape whose computed size is negative (where the allocation of the buffer
rejects the length); for every non-empty shape with a zero extent it returns an
array of size `0` over an empty buffer. -/
theorem Zeros_fails (shape : Shape) :
    ((shape = [] ∨ ∃ n, ComputeSize shape = some n ∧ n < 0) → Zeros shape = none) ∧
    ((∀ n ∈ shape, IsInt n) → (0 : Int) ∈ shape →
      ∃ a, Zeros shape = some ([], a) ∧ a.shape = shape ∧ a.size = 0 ∧ a.data.len = 0) := by
  constructor
  · rintro (h | ⟨n, hn, hneg⟩)
    · subst h; rfl
    · unfold Zeros
      simp [hn, makeSlice, not_le.mpr hneg]
  · intro hint h0
    have hne : shape ≠ [] := List.ne_nil_of_mem h0
    have hsz : ComputeSize shape = some 0 := by
      rw [ComputeSize_eq shape hne hint, List.prod_eq_zero h0, wrapInt_zero]
    have hlim : (0 : Int) ≤ maxSliceLen := by decide
    unfold Zeros
    simp [hsz, makeSlice, hlim]

/-- Instance of the amended C10 at the shape `{-1}`, of computed size `-1`, and
at the shape `{3,0}`. -/
theorem Zeros_fails_witness :
    (([-1] : Shape) = [] ∨ ∃ n, ComputeSize [-1] = some n ∧ n < 0) ∧ Zeros [-1] = none ∧
    (∀ n ∈ ([3, 0] : Shape), IsInt n) ∧ (0 : Int) ∈ ([3, 0] : Shape) ∧
    ∃ a, Zeros [3, 0] = some ([], a) ∧ a.shape = [3, 0] ∧ a.size = 0 ∧ a.data.len = 0 :=
  ⟨Or.inr ⟨-1, by decide, by decide⟩,
    (Zeros_fails [-1]).1 (Or.inr ⟨-1, by decide, by decide⟩),
    by decide, by decide, (Zeros_fails [3, 0]).2 (by decide) (by decide)⟩

/-! ## Claims on construction -/

theorem Zeros_of_size {shape : Shape} {size : Int} (hsz : ComputeSize shape = some size)
    (h0 : 0 ≤ size) (h1 : size ≤ maxSliceLen) :
    Zeros shape = some (List.replicate size.toNat 0,
      { data := ⟨0, size.toNat⟩, ndims := shape.length, shape := shape,
        strides := ComputeStrides shape, size := size,
        it := some { shape := shape, strides := ComputeStrides shape } }) := by
  unfold Zeros
  simp [hsz, makeSlice, h0, h1, Iter]

theorem Slice.get_replicate_zero (n : Nat) (j : Int) (h0 : 0 ≤ j) (h1 : j < n) :
    Slice.get (List.replicate n (0 : Float64)) ⟨0, n⟩ j = some 0 := by
  have : j.toNat < n := by omega
  simp [Slice.get, h0, h1, List.getElem?_replicate, this]

/-- C11 (as stated) fails at the shape `{2^62, 2}`, whose extents are positive:
the size computed in `int` arithmetic is `-2^63` and the allocation of the
buffer panics.  It fails as well at the one-axis shape `{2^46}`, whose size is
above what `make` accepts. -/
theorem Zeros_fails_on_overflow :
    (∀ n ∈ ([4611686018427387904, 2] : Shape), 1 ≤ n) ∧
    ComputeSize [4611686018427387904, 2] = some (-9223372036854775808) ∧
    Zeros [4611686018427387904, 2] = none ∧
    ComputeSize [70368744177664] = some 70368744177664 ∧
    Zeros [70368744177664] = none := by
  have hsz : ComputeSize [4611686018427387904, 2] = some (-9223372036854775808) := by
    norm_num [ComputeSize, mulAll, wrapInt]
  have hsz2 : ComputeSize [70368744177664] = some 70368744177664 := by
    simp [ComputeSize, mulAll]
  refine ⟨by simp, hsz, ?_, hsz2, ?_⟩
  · unfold Zeros
    rw [hsz]
    simp [makeSlice]
  · unfold Zeros
    rw [hsz2]
    norm_num [makeSlice, maxSliceLen]

/-- C11 (as amended): for every shape of rank at least one whose extents are all
at least one and whose product of extents is at most `2^45`, the largest length
that `make` accepts, `Zeros(shape)` returns an array with the given shape, rank
`len(shape)`, size the product of the extents, strides `ComputeStrides(shape)`
and a buffer of exactly `size` elements, all of them `0`; the array is well
formed. -/
theorem Zeros_spec (shape : Shape) (hne : shape ≠ []) (hpos : ∀ n ∈ shape, 1 ≤ n)
    (halloc : shape.prod ≤ maxSliceLen) :
    ∃ mem a, Zeros shape = some (mem, a) ∧ a.shape = shape ∧ a.ndims = shape.length ∧
      a.size = shape.prod ∧ a.strides = ComputeStrides shape ∧
      (a.data.len : Int) = a.size ∧ a.data.off = 0 ∧ mem.length = a.data.len ∧
      (∀ j, 0 ≤ j → j < a.size → a.data.get mem j = some 0) ∧
      ((shape.length : Int) ≤ maxInt → WellFormed mem a) := by
  have hfit : shape.prod ≤ maxInt := by
    unfold maxSliceLen at halloc
    unfold maxInt
    omega
  have hsz := ComputeSize_of_fits hne hpos hfit
  have h1 := one_le_prod hpos
  have h0 : (0 : Int) ≤ shape.prod := by omega
  refine ⟨_, _, Zeros_of_size hsz h0 halloc, rfl, rfl, rfl, rfl, ?_, rfl, ?_, ?_, ?_⟩
  · simp; omega
  · simp
  · intro j hj0 hj1
    exact Slice.get_replicate_zero _ j hj0 (by simp at hj1 ⊢; omega)
  · intro hlen
    refine ⟨hne, hpos, rfl, hlen, rfl, rfl, hfit, ?_, ?_⟩
    · simp; omega
    · simp

/-- Instance of the amended C11 at the shape `{2,3}`. -/
theorem Zeros_spec_witness :
    ∃ mem a, Zeros [2, 3] = some (mem, a) ∧ a.shape = [2, 3] ∧
      a.ndims = ([2, 3] : Shape).length ∧
      a.size = ([2, 3] : Shape).prod ∧ a.strides = ComputeStrides [2, 3] ∧
      (a.data.len : Int) = a.size ∧ a.data.off = 0 ∧ mem.length = a.data.len ∧
      (∀ j, 0 ≤ j → j < a.size → a.data.get mem j = some 0) ∧
      ((([2, 3] : Shape).length : Int) ≤ maxInt → WellFormed mem a) :=
  Zeros_spec [2, 3] (by decide) (by decide) (by decide)

theorem copyFrom_length (mem : List Float64) (pos n : Nat) (src : List Float64) :
    (copyFrom mem pos n src).length = mem.length := by
  induction n generalizing mem pos src with
  | zero => simp [copyFrom]
  | succ n ih =>
    cases src with
    | nil => simp [copyFrom]
    | cons x src => simp [copyFrom, ih]

/-- What `copy` leaves in the backing array: the copied elements inside the
copied range, the old contents elsewhere. -/
theorem copyFrom_get (mem : List Float64) (pos n : Nat) (src : List Float64)
    (hin : pos + n ≤ mem.length) (p : Nat) :
    (copyFrom mem pos n src)[p]? =
      if pos ≤ p ∧ p < pos + min n src.length then src[p - pos]? else mem[p]? := by
  induction n generalizing mem pos src with
  | zero =>
    rw [copyFrom, if_neg (by simp)]
  | succ n ih =>
    cases src with
    | nil =>
      rw [copyFrom, if_neg (by simp)]
    | cons x src =>
      rw [copyFrom, ih (mem.set pos x) (pos + 1) src (by simp; omega)]
      by_cases h1 : pos + 1 ≤ p ∧ p < pos + 1 + min n src.length
      · have h2 : pos ≤ p ∧ p < pos + min (n + 1) (x :: src).length := by
          simp only [List.length_cons]; omega
        rw [if_pos h1, if_pos h2]
        have : p - pos = (p - (pos + 1)) + 1 := by omega
        rw [this, List.getElem?_cons_succ]
      · rw [if_neg h1]
        by_cases h3 : p = pos
        · subst h3
          have h2 : p ≤ p ∧ p < p + min (n + 1) (x :: src).length := by
            simp only [List.length_cons]; omega
          rw [if_pos h2, List.getElem?_set_self (by omega)]
          simp
        · have h2 : ¬ (pos ≤ p ∧ p < pos + min (n + 1) (x :: src).length) := by
            simp only [List.length_cons]; omega
          rw [if_neg h2, List.getElem?_set_ne (by omega)]

/-- C12 (as stated) fails at the shape `{2^62, 2}`, whose extents are positive:
`Zeros` panics there (the size computed in `int` arithmetic is negative), and so
does `New`.  It fails as well at the one-axis shape `{2^46}`, whose size is
above what `make` accepts. -/
theorem New_fails_on_overflow :
    (∀ n ∈ ([4611686018427387904, 2] : Shape), 1 ≤ n) ∧
    New [4611686018427387904, 2] [1, 2] = none ∧
    New [70368744177664] [1, 2] = none := by
  have hsz : ComputeSize [4611686018427387904, 2] = some (-9223372036854775808) := by
    norm_num [ComputeSize, mulAll, wrapInt]
  have hsz2 : ComputeSize [70368744177664] = some 70368744177664 := by
    simp [ComputeSize, mulAll]
  refine ⟨by simp, ?_, ?_⟩
  · unfold New Zeros
    rw [hsz]
    simp [makeSlice]
  · unfold New Zeros
    rw [hsz2]
    norm_num [makeSlice, maxSliceLen]

/-- C12 (as amended): for every shape of rank at least one whose extents are all
at least one and whose product of extents is at most `2^45`, the largest length
that `make` accepts, and for every value sequence `v`, `New(shape, v)` returns an
array of that shape and of size the product of the extents, whose flat element
`i` is `v[i]` for every `i < min(len(v), size)` and `0` for every
`len(v) ≤ i < size`. -/
theorem New_spec (shape : Shape) (hne : shape ≠ []) (hpos : ∀ n ∈ shape, 1 ≤ n)
    (halloc : shape.prod ≤ maxSliceLen) (v : List Float64) :
    ∃ mem a, New shape v = some (mem, a) ∧ a.shape = shape ∧ a.size = shape.prod ∧
      (a.data.len : Int) = a.size ∧ mem.length = a.data.len ∧
      (∀ i : Nat, i < v.length → (i : Int) < a.size → a.data.get mem i = v[i]?) ∧
      (∀ i : Nat, v.length ≤ i → (i : Int) < a.size → a.data.get mem i = some 0) := by
  have hfit : shape.prod ≤ maxInt := by
    unfold maxSliceLen at halloc
    unfold maxInt
    omega
  have hsz := ComputeSize_of_fits hne hpos hfit
  have h1 := one_le_prod hpos
  have h0 : (0 : Int) ≤ shape.prod := by omega
  have hN : New shape v = some (copyFrom (List.replicate shape.prod.toNat 0) 0
      shape.prod.toNat v,
      { data := ⟨0, shape.prod.toNat⟩, ndims := shape.length, shape := shape,
        strides := ComputeStrides shape, size := shape.prod,
        it := some { shape := shape, strides := ComputeStrides shape } }) := by
    unfold New
    rw [Zeros_of_size hsz h0 halloc]
  refine ⟨_, _, hN, rfl, rfl, ?_, ?_, ?_, ?_⟩
  · simp; omega
  · simp [copyFrom_length]
  · intro i hi hisz
    simp only at hisz ⊢
    have hlt : i < shape.prod.toNat := by omega
    unfold Slice.get
    rw [if_pos ⟨by omega, by simp; omega⟩]
    simp only [Int.toNat_ofNat, zero_add]
    rw [copyFrom_get _ _ _ _ (by simp), if_pos ⟨by omega, by omega⟩, Nat.sub_zero]
  · intro i hi hisz
    simp only at hisz ⊢
    have hlt : i < shape.prod.toNat := by omega
    unfold Slice.get
    rw [if_pos ⟨by omega, by simp; omega⟩]
    simp only [Int.toNat_ofNat, zero_add]
    rw [copyFrom_get _ _ _ _ (by simp), if_neg (by omega)]
    simp [List.getElem?_replicate, hlt]

/-- Instance of the amended C12 at the spec's example `New({2,2}, [1,2,3,4])`. -/
theorem New_spec_witness :
    ∃ mem a, New [2, 2] [1, 2, 3, 4] = some (mem, a) ∧ a.shape = [2, 2] ∧
      a.size = ([2, 2] : Shape).prod ∧
      (a.data.len : Int) = a.size ∧ mem.length = a.data.len ∧
      (∀ i : Nat, i < ([1, 2, 3, 4] : List Float64).length → (i : Int) < a.size →
        a.data.get mem i = ([1, 2, 3, 4] : List Float64)[i]?) ∧
      (∀ i : Nat, ([1, 2, 3, 4] : List Float64).length ≤ i → (i : Int) < a.size →
        a.data.get mem i = some 0) :=
  New_spec [2, 2] (by decide) (by decide) (by decide) [1, 2, 3, 4]

/-- The spec's example in full: `New({2,2}, [1,2,3,4])` has the flat data
`[1,2,3,4]`, and a shorter sequence leaves the trailing elements zero. -/
theorem New_example :
    (New [2, 2] [1, 2, 3, 4]).map (fun r => r.1) = some [1, 2, 3, 4] ∧
    (New [2, 2] [1, 2]).map (fun r => r.1) = some [1, 2, 0, 0] := by
  constructor <;> rfl

/-! ## Claims on `Scale` -/

theorem Slice.get_eq_of_lt {mem : List Float64} {d : Slice} {k : Int} (h0 : 0 ≤ k)
    (h1 : k < d.len) : d.get mem k = mem[d.off + k.toNat]? := by
  unfold Slice.get
  rw [if_pos ⟨h0, h1⟩]

theorem Slice.set_eq_of_lt {mem : List Float64} {d : Slice} {k : Int} (h0 : 0 ≤ k)
    (h1 : k < d.len) (v : Float64) : d.set mem k v = some (mem.set (d.off + k.toNat) v) := by
  unfold Slice.set
  rw [if_pos ⟨h0, h1⟩]

theorem getElem?_isSome_of_lt (mem : List Float64) (p : Nat) (h : p < mem.length) :
    ∃ v, mem[p]? = some v :=
  ⟨mem[p], List.getElem?_eq_getElem h⟩

/-- The general loop of `Scale`, when the offset written at any step is never
read at a later step: the loop returns, the element at `y`'s `i`-th offset is
`a` times what `x`'s `i`-th offset held before the loop, and nothing but `y`'s
offsets is written. -/
theorem scaleLoop_spec (a : Float64) (xd yd : Slice) (xi yi : List Int)
    (mem : List Float64) (hlen : xi.length = yi.length)
    (hx : ∀ k ∈ xi, 0 ≤ k ∧ k < xd.len) (hy : ∀ k ∈ yi, 0 ≤ k ∧ k < yd.len)
    (hxm : xd.off + xd.len ≤ mem.length) (hym : yd.off + yd.len ≤ mem.length)
    (hnd : yi.Nodup)
    (hfresh : ∀ (i j : Nat) (kx ky : Int), j < i → xi[i]? = some kx → yi[j]? = some ky →
      xd.off + kx.toNat ≠ yd.off + ky.toNat) :
    ∃ mem1, scaleLoop a xd yd xi.length xi yi mem = { mem := mem1, ok := true } ∧
      mem1.length = mem.length ∧
      (∀ (i : Nat) (kx ky : Int) (v : Float64), xi[i]? = some kx → yi[i]? = some ky →
        mem[xd.off + kx.toNat]? = some v →
        mem1[yd.off + ky.toNat]? = some (mulF64 a v)) ∧
      (∀ p, (∀ k ∈ yi, p ≠ yd.off + k.toNat) → mem1[p]? = mem[p]?) := by
  induction xi generalizing yi mem with
  | nil =>
    refine ⟨mem, by simp [scaleLoop], rfl, ?_, fun p _ => rfl⟩
    intro i kx ky v h
    simp at h
  | cons kx0 xi ih =>
    cases yi with
    | nil => simp at hlen
    | cons ky0 yi =>
      obtain ⟨hx0a, hx0b⟩ := hx kx0 (List.mem_cons_self _ _)
      obtain ⟨hy0a, hy0b⟩ := hy ky0 (List.mem_cons_self _ _)
      obtain ⟨v0, hv0⟩ := getElem?_isSome_of_lt mem (xd.off + kx0.toNat) (by omega)
      have hpy0 : yd.off + ky0.toNat < mem.length := by omega
      have hnd2 := List.nodup_cons.mp hnd
      obtain ⟨mem1, hrun, hl1, hval, hoth⟩ := ih yi (mem.set (yd.off + ky0.toNat) (mulF64 a v0))
        (by simpa using hlen)
        (fun k hk => hx k (List.mem_cons_of_mem _ hk))
        (fun k hk => hy k (List.mem_cons_of_mem _ hk))
        (by simpa using hxm) (by simpa using hym) hnd2.2
        (fun i j kx ky hji h1 h2 =>
          hfresh (i + 1) (j + 1) kx ky (by omega) (by simpa using h1) (by simpa using h2))
      have hnot : ∀ k ∈ yi, yd.off + ky0.toNat ≠ yd.off + k.toNat := by
        intro k hk heq
        have hk0 := (hy k (List.mem_cons_of_mem _ hk)).1
        have : ky0 = k := by omega
        exact hnd2.1 (this ▸ hk)
      refine ⟨mem1, ?_, by simpa using hl1, ?_, ?_⟩
      · simp only [List.length_cons, scaleLoop, Slice.get_eq_of_lt hx0a hx0b, hv0,
          Slice.set_eq_of_lt hy0a hy0b]
        exact hrun
      · intro i kx ky v h1 h2 h3
        cases i with
        | zero =>
          simp only [List.getElem?_cons_zero, Option.some.injEq] at h1 h2
          subst h1 h2
          rw [hv0] at h3
          obtain rfl : v0 = v := Option.some.inj h3
          rw [hoth _ hnot, List.getElem?_set_self hpy0]
        | succ i =>
          simp only [List.getElem?_cons_succ] at h1 h2
          apply hval i kx ky v h1 h2
          have hne : yd.off + ky0.toNat ≠ xd.off + kx.toNat := fun e =>
            hfresh (i + 1) 0 kx ky0 (by omega) (by simpa using h1) (by simp) e.symm
          rw [List.getElem?_set_ne hne]
          exact h3
      · intro p hp
        rw [hoth p (fun k hk => hp k (List.mem_cons_of_mem _ hk)),
          List.getElem?_set_ne (fun e => hp ky0 (List.mem_cons_self _ _) e.symm)]

/-- The general loop of `Scale` on iterators that honour their contract returns
whatever the aliasing. -/
theorem scaleLoop_ok (a : Float64) (xd yd : Slice) (xi yi : List Int)
    (mem : List Float64) (hlen : xi.length = yi.length)
    (hx : ∀ k ∈ xi, 0 ≤ k ∧ k < xd.len) (hy : ∀ k ∈ yi, 0 ≤ k ∧ k < yd.len)
    (hxm : xd.off + xd.len ≤ mem.length) :
    (scaleLoop a xd yd xi.length xi yi mem).ok = true := by
  induction xi generalizing yi mem with
  | nil => simp [scaleLoop]
  | cons kx0 xi ih =>
    cases yi with
    | nil => simp at hlen
    | cons ky0 yi =>
      obtain ⟨hx0a, hx0b⟩ := hx kx0 (List.mem_cons_self _ _)
      obtain ⟨hy0a, hy0b⟩ := hy ky0 (List.mem_cons_self _ _)
      obtain ⟨v0, hv0⟩ := getElem?_isSome_of_lt mem (xd.off + kx0.toNat) (by omega)
      simp only [List.length_cons, scaleLoop, Slice.get_eq_of_lt hx0a hx0b, hv0,
        Slice.set_eq_of_lt hy0a hy0b]
      exact ih yi _ (by simpa using hlen)
        (fun k hk => hx k (List.mem_cons_of_mem _ hk))
        (fun k hk => hy k (List.mem_cons_of_mem _ hk)) (by simpa using hxm)

/-- The in-place loop is the general loop run with both operands on the same
buffer and offset list. -/
theorem scaleInPlace_eq_scaleLoop (a : Float64) (xd : Slice) (ind : List Int)
    (mem : List Float64) :
    scaleInPlace a xd ind mem = scaleLoop a xd xd ind.length ind ind mem := by
  induction ind generalizing mem with
  | nil => simp [scaleInPlace, scaleLoop]
  | cons k ind ih =>
    simp only [scaleInPlace, List.length_cons, scaleLoop, mulF64, mul_comm a]
    cases hg : xd.get mem k with
    | none => rfl
    | some v =>
      simp only
      cases hs : xd.set mem k (roundF64 (v * a)) with
      | none => rfl
      | some mem1 => exact ih mem1

theorem mulF64_intCast (m n : ℤ) (h : |m * n| ≤ 2 ^ 53) :
    mulF64 (m : ℚ) (n : ℚ) = ((m * n : ℤ) : ℚ) := by
  unfold mulF64
  rw [← Int.cast_mul]
  exact roundF64_intCast (m * n) h

/-- What the general branch of `Scale` does for two iterators that honour their
contract, when no offset written at a step is read at a later step. -/
theorem Scale_general (mem : List Float64) (a : Float64) (x y : Iterator) (hxy : x ≠ y)
    (hlen : x.len = y.len) (hx : x.Valid mem) (hy : y.Valid mem) (hnd : y.ind.Nodup)
    (hfresh : ∀ (i j : Nat) (kx ky : Int), j < i → x.ind[i]? = some kx →
      y.ind[j]? = some ky → x.data.off + kx.toNat ≠ y.data.off + ky.toNat) :
    (Scale mem a x y).ok = true ∧
    (Scale mem a x y).mem.length = mem.length ∧
    (∀ (i : Nat) (kx ky : Int), x.ind[i]? = some kx → y.ind[i]? = some ky →
      ∃ v, x.data.get mem kx = some v ∧
        y.data.get (Scale mem a x y).mem ky = some (mulF64 a v)) ∧
    (∀ p, (∀ k ∈ y.ind, p ≠ y.data.off + k.toNat) →
      (Scale mem a x y).mem[p]? = mem[p]?) := by
  obtain ⟨hxl, hxr, hxm⟩ := hx
  obtain ⟨hyl, hyr, hym⟩ := hy
  have hll : x.ind.length = y.ind.length := by omega
  obtain ⟨mem1, hrun, hl1, hval, hoth⟩ :=
    scaleLoop_spec a x.data y.data x.ind y.ind mem hll hxr hyr hxm hym hnd hfresh
  have hS : Scale mem a x y = { mem := mem1, ok := true } := by
    unfold Scale
    rw [if_neg (by simpa using hlen), if_neg hxy, hxl]
    simpa using hrun
  rw [hS]
  refine ⟨rfl, hl1, ?_, hoth⟩
  intro i kx ky h1 h2
  obtain ⟨hk0, hk1⟩ := hxr kx (List.getElem?_mem h1)
  obtain ⟨hq0, hq1⟩ := hyr ky (List.getElem?_mem h2)
  obtain ⟨v, hv⟩ := getElem?_isSome_of_lt mem (x.data.off + kx.toNat) (by omega)
  refine ⟨v, by rw [Slice.get_eq_of_lt hk0 hk1, hv], ?_⟩
  rw [Slice.get_eq_of_lt hq0 hq1]
  exact hval i kx ky v h1 h2 hv

/-- C13: for every scalar `a` and every two iterators `x`, `y` over disjoint
buffers with `x.Len() == y.Len()`, each listing as many offsets as its length,
all inside its buffer, and `y`'s offsets pairwise distinct, `Scale(a, x, y)`
returns; afterwards `y`'s buffer holds `a * xd[xi[i]]` at the offset `yi[i]` for
every `i`, every element of `y`'s buffer at an offset not in `y.Ind()` is
unchanged, and `x`'s buffer is unchanged. -/
theorem Scale_spec (mem : List Float64) (a : Float64) (x y : Iterator)
    (hlen : x.len = y.len) (hx : x.Valid mem) (hy : y.Valid mem)
    (hdisj : x.data.off + x.data.len ≤ y.data.off ∨ y.data.off + y.data.len ≤ x.data.off)
    (hnd : y.ind.Nodup) :
    (Scale mem a x y).ok = true ∧
    (∀ (i : Nat) (kx ky : Int), x.ind[i]? = some kx → y.ind[i]? = some ky →
      ∃ v, x.data.get mem kx = some v ∧
        y.data.get (Scale mem a x y).mem ky = some (mulF64 a v)) ∧
    (∀ k, k ∉ y.ind → y.data.get (Scale mem a x y).mem k = y.data.get mem k) ∧
    (∀ k, x.data.get (Scale mem a x y).mem k = x.data.get mem k) := by
  by_cases hxy : x = y
  · -- one iterator whose buffer is disjoint from itself visits nothing
    subst hxy
    have hempty : x.ind = [] := by
      cases hi : x.ind with
      | nil => rfl
      | cons k ks =>
        have := hx.2.1 k (by rw [hi]; exact List.mem_cons_self _ _)
        omega
    have hS : Scale mem a x x = { mem := mem, ok := true } := by
      unfold Scale
      simp [hempty, scaleInPlace]
    rw [hS]
    refine ⟨rfl, ?_, fun _ _ => rfl, fun _ => rfl⟩
    intro i kx ky h1
    rw [hempty] at h1
    simp at h1
  · have hxr := hx.2.1
    have hyr := hy.2.1
    have hfresh : ∀ (i j : Nat) (kx ky : Int), j < i → x.ind[i]? = some kx →
        y.ind[j]? = some ky → x.data.off + kx.toNat ≠ y.data.off + ky.toNat := by
      intro i j kx ky _ h1 h2
      have := hxr kx (List.getElem?_mem h1)
      have := hyr ky (List.getElem?_mem h2)
      omega
    obtain ⟨hok, _, hval, hoth⟩ := Scale_general mem a x y hxy hlen hx hy hnd hfresh
    refine ⟨hok, hval, ?_, ?_⟩
    · intro k hk
      unfold Slice.get
      by_cases hc : 0 ≤ k ∧ k < y.data.len
      · rw [if_pos hc, if_pos hc]
        apply hoth
        intro k2 hk2 heq
        have := hyr k2 hk2
        have : k = k2 := by omega
        exact hk (this ▸ hk2)
      · rw [if_neg hc, if_neg hc]
    · intro k
      unfold Slice.get
      by_cases hc : 0 ≤ k ∧ k < x.data.len
      · rw [if_pos hc, if_pos hc]
        apply hoth
        intro k2 hk2
        have := hyr k2 hk2
        omega
      · rw [if_neg hc, if_neg hc]

theorem exampleX_valid (mem : List Float64) (h : 3 ≤ mem.length) : exampleX.Valid mem := by
  unfold Iterator.Valid exampleX
  exact ⟨by decide, by decide, by simpa using h⟩

theorem exampleY_valid (mem : List Float64) (h : 6 ≤ mem.length) : exampleY.Valid mem := by
  unfold Iterator.Valid exampleY
  exact ⟨by decide, by decide, by simpa using h⟩

/-- Instance of C13 at the spec's example: `a = 2`, `x = [1,2,3]`, `y = [0,0,0]`
on disjoint buffers. -/
theorem Scale_spec_witness :
    (Scale [1, 2, 3, 0, 0, 0] 2 exampleX exampleY).ok = true ∧
    (∀ (i : Nat) (kx ky : Int), exampleX.ind[i]? = some kx → exampleY.ind[i]? = some ky →
      ∃ v, exampleX.data.get [1, 2, 3, 0, 0, 0] kx = some v ∧
        exampleY.data.get (Scale [1, 2, 3, 0, 0, 0] 2 exampleX exampleY).mem ky
          = some (mulF64 2 v)) ∧
    (∀ k, k ∉ exampleY.ind →
      exampleY.data.get (Scale [1, 2, 3, 0, 0, 0] 2 exampleX exampleY).mem k
        = exampleY.data.get [1, 2, 3, 0, 0, 0] k) ∧
    (∀ k, exampleX.data.get (Scale [1, 2, 3, 0, 0, 0] 2 exampleX exampleY).mem k
      = exampleX.data.get [1, 2, 3, 0, 0, 0] k) :=
  Scale_spec [1, 2, 3, 0, 0, 0] 2 exampleX exampleY (by decide)
    (exampleX_valid _ (by decide)) (exampleY_valid _ (by decide)) (Or.inl (by decide))
    (by decide)

theorem mulF64_two_one : mulF64 2 1 = 2 := by
  have := mulF64_intCast 2 1 (by norm_num)
  simpa using this

theorem mulF64_two_two : mulF64 2 2 = 4 := by
  have := mulF64_intCast 2 2 (by norm_num)
  simpa using this

theorem mulF64_two_three : mulF64 2 3 = 6 := by
  have := mulF64_intCast 2 3 (by norm_num)
  simpa using this

theorem mulF64_two_four : mulF64 2 4 = 8 := by
  have := mulF64_intCast 2 4 (by norm_num)
  simpa using this

theorem mulF64_one_two : mulF64 1 2 = 2 := by
  have := mulF64_intCast 1 2 (by norm_num)
  simpa using this

theorem mulF64_three_two : mulF64 3 2 = 6 := by
  have := mulF64_intCast 3 2 (by norm_num)
  simpa using this

/-- The spec's two scale examples evaluated: on disjoint buffers `y` becomes
`[2,4,6]` and `x` stays `[1,2,3]`; with `x` as both operands `x` becomes
`[2,4,6]`. -/
theorem Scale_examples :
    Scale [1, 2, 3, 0, 0, 0] 2 exampleX exampleY = { mem := [1, 2, 3, 2, 4, 6], ok := true } ∧
    Scale [1, 2, 3] 2 exampleX exampleX = { mem := [2, 4, 6], ok := true } := by
  constructor
  · simp [Scale, scaleLoop, exampleX, exampleY, Slice.get, Slice.set, mulF64_two_one,
      mulF64_two_two, mulF64_two_three]
  · simp [Scale, scaleInPlace, exampleX, Slice.get, Slice.set, mulF64_one_two,
      mulF64_two_two, mulF64_three_two]

/-- C14: the aliasing fast path of `Scale` agrees with the general path.  For
every scalar `a` and every iterator `x` with `Len() == len(Ind())`, the call
with `x` as both operands (the in-place branch) leaves the backing array, and
returns or panics, exactly as the call whose second operand is another iterator
bound to the same buffer and offset list (the general loop). -/
theorem Scale_inplace_agrees (mem : List Float64) (a : Float64) (x y : Iterator)
    (hx : x.len = x.ind.length) (hxy : x ≠ y) (hl : y.len = x.len)
    (hd : y.data = x.data) (hi : y.ind = x.ind) :
    Scale mem a x x = Scale mem a x y := by
  unfold Scale
  rw [if_neg (by simp), if_pos rfl, if_neg (by simp [hl]), if_neg hxy, hd, hi, hx]
  simpa using scaleInPlace_eq_scaleLoop a x.data x.ind mem

/-- Instance of C14 at the spec's example `Scale(2, x, x)` on `x = [1,2,3]`. -/
theorem Scale_inplace_agrees_witness :
    Scale [1, 2, 3] 2 exampleX exampleX = Scale [1, 2, 3] 2 exampleX exampleX2 :=
  Scale_inplace_agrees [1, 2, 3] 2 exampleX exampleX2 (by decide) (by decide) (by decide)
    (by decide) (by decide)

theorem Scale_ok_of_valid (mem : List Float64) (a : Float64) (x y : Iterator)
    (hlen : x.len = y.len) (hx : x.Valid mem) (hy : y.Valid mem) :
    (Scale mem a x y).ok = true := by
  obtain ⟨hxl, hxr, hxm⟩ := hx
  obtain ⟨hyl, hyr, hym⟩ := hy
  unfold Scale
  rw [if_neg (by simpa using hlen)]
  by_cases hxy : x = y
  · rw [if_pos hxy, scaleInPlace_eq_scaleLoop]
    exact scaleLoop_ok a x.data x.data x.ind x.ind mem rfl hxr hxr hxm
  · rw [if_neg hxy, hxl]
    simpa using scaleLoop_ok a x.data y.data x.ind y.ind mem (by omega) hxr hyr hxm

/-- C15: for every scalar `a` and iterators `x`, `y` (honouring the iterator
contract), `Scale(a, x, y)` fails exactly when `x.Len() != y.Len()`, and when it
fails the backing array, hence either operand's buffer, is as before. -/
theorem Scale_fails_iff (mem : List Float64) (a : Float64) (x y : Iterator)
    (hx : x.Valid mem) (hy : y.Valid mem) :
    ((Scale mem a x y).ok = false ↔ x.len ≠ y.len) ∧
    ((Scale mem a x y).ok = false → (Scale mem a x y).mem = mem) := by
  by_cases hlen : x.len = y.len
  · have hok := Scale_ok_of_valid mem a x y hlen hx hy
    simp [hok, hlen]
  · have hS : Scale mem a x y = { mem := mem, ok := false } := by
      unfold Scale
      rw [if_pos hlen]
    simp [hS, hlen]

/-- Instance of C15: an iterator of three elements against one of two. -/
theorem Scale_fails_iff_witness :
    (Scale [1, 2, 3, 0, 0, 0] 2 exampleX exampleShort).ok = false ∧
    (Scale [1, 2, 3, 0, 0, 0] 2 exampleX exampleShort).mem = [1, 2, 3, 0, 0, 0] :=
  ⟨(Scale_fails_iff [1, 2, 3, 0, 0, 0] 2 exampleX exampleShort
      (exampleX_valid _ (by decide))
      (by unfold Iterator.Valid exampleShort; exact ⟨by decide, by decide, by decide⟩)).1.mpr
      (by decide),
   (Scale_fails_iff [1, 2, 3, 0, 0, 0] 2 exampleX exampleShort
      (exampleX_valid _ (by decide))
      (by unfold Iterator.Valid exampleShort; exact ⟨by decide, by decide, by decide⟩)).2
      ((Scale_fails_iff [1, 2, 3, 0, 0, 0] 2 exampleX exampleShort
        (exampleX_valid _ (by decide))
        (by unfold Iterator.Valid exampleShort; exact ⟨by decide, by decide, by decide⟩)).1.mpr
        (by decide))⟩

/-- C18 (as stated) fails for two distinct iterators of equal length on one
buffer `[1,5,7]`, `x` visiting the offsets `0,1,2` and `y` the pairwise distinct
offsets `1,2,0`, with `a = 2`: the write at step 0 replaces the `5` that step 1
reads, so that `y`'s second visited element becomes `4`, not `2 * 5`. -/
theorem Scale_overlap_clobbers :
    exampleX ≠ exampleRot ∧ exampleX.len = exampleRot.len ∧
    exampleX.data = exampleRot.data ∧ exampleRot.ind.Nodup ∧
    Scale [1, 5, 7] 2 exampleX exampleRot = { mem := [8, 2, 4], ok := true } ∧
    exampleX.ind[1]? = some 1 ∧ exampleRot.ind[1]? = some 2 ∧
    exampleX.data.get [1, 5, 7] 1 = some 5 ∧
    exampleRot.data.get [8, 2, 4] 2 = some 4 ∧ (4 : Float64) ≠ mulF64 2 5 := by
  have h25 : mulF64 2 5 = 10 := by
    have := mulF64_intCast 2 5 (by norm_num)
    simpa using this
  refine ⟨by decide, by decide, by decide, by decide, ?_, by decide, by decide, ?_, ?_, ?_⟩
  · simp [Scale, scaleLoop, exampleX, exampleRot, Slice.get, Slice.set, mulF64_two_one,
      mulF64_two_two, mulF64_two_four]
  · simp [exampleX, Slice.get]
  · simp [exampleRot, Slice.get]
  · rw [h25]; norm_num

/-- C18 (as amended): for every scalar `a` and every two distinct iterators `x`
and `y` of equal length whose buffers are windows on one underlying buffer
(such as a parent and a view `data[o:]` of it; both honouring the iterator
contract, `y`'s offsets pairwise distinct), such that no element `x` visits at a
step is an element `y` visits at an earlier step, elements being compared by
their position `window offset + visited offset` in the underlying buffer,
`Scale(a, x, y)` returns and afterwards the element at `y`'s `i`-th visited
offset is `a` times the value that `x`'s `i`-th visited offset held before the
call, for every `i`. -/
theorem Scale_aliased (mem : List Float64) (a : Float64) (x y : Iterator) (hxy : x ≠ y)
    (hlen : x.len = y.len) (hx : x.Valid mem) (hy : y.Valid mem) (hnd : y.ind.Nodup)
    (hfresh : ∀ (i j : Nat) (kx ky : Int), j < i → x.ind[i]? = some kx →
      y.ind[j]? = some ky → (x.data.off : Int) + kx ≠ (y.data.off : Int) + ky) :
    (Scale mem a x y).ok = true ∧
    (∀ (i : Nat) (kx ky : Int), x.ind[i]? = some kx → y.ind[i]? = some ky →
      ∃ v, x.data.get mem kx = some v ∧
        y.data.get (Scale mem a x y).mem ky = some (mulF64 a v)) := by
  have hxr := hx.2.1
  have hyr := hy.2.1
  have hf : ∀ (i j : Nat) (kx ky : Int), j < i → x.ind[i]? = some kx →
      y.ind[j]? = some ky → x.data.off + kx.toNat ≠ y.data.off + ky.toNat := by
    intro i j kx ky hji h1 h2 heq
    have := hxr kx (List.getElem?_mem h1)
    have := hyr ky (List.getElem?_mem h2)
    exact hfresh i j kx ky hji h1 h2 (by omega)
  obtain ⟨hok, _, hval, _⟩ := Scale_general mem a x y hxy hlen hx hy hnd hf
  exact ⟨hok, hval⟩

/-- Instance of the amended C18 on a parent and its view: `x` visits the view
`data[1:]` of the four-element buffer `[1,5,7,9]` and `y` the first three
elements of the parent, so that every element is read before it is written. -/
theorem Scale_aliased_witness :
    (Scale [1, 5, 7, 9] 2 exampleViewIt exampleParentIt).ok = true ∧
    (∀ (i : Nat) (kx ky : Int), exampleViewIt.ind[i]? = some kx →
      exampleParentIt.ind[i]? = some ky →
      ∃ v, exampleViewIt.data.get [1, 5, 7, 9] kx = some v ∧
        exampleParentIt.data.get (Scale [1, 5, 7, 9] 2 exampleViewIt exampleParentIt).mem ky
          = some (mulF64 2 v)) :=
  Scale_aliased [1, 5, 7, 9] 2 exampleViewIt exampleParentIt (by decide) (by decide)
    (by unfold Iterator.Valid exampleViewIt; exact ⟨by decide, by decide, by decide⟩)
    (by unfold Iterator.Valid exampleParentIt; exact ⟨by decide, by decide, by decide⟩)
    (by decide)
    (by
      intro i j kx ky hji h1 h2
      rcases i with _ | _ | _ | i <;> rcases j with _ | _ | _ | j <;>
        simp [exampleViewIt, exampleParentIt] at h1 h2 ⊢ <;> omega)

/-- The two orders of a parent and its view `data[1:]` on the buffer `[1,5,7,9]`
with `a = 2`.  Reading through the view and writing through the parent, every
element is read before it is written and the result is `[10,14,18,9]`; reading
through the parent and writing through the view, each write replaces the value
the next step reads and the result is `[1,2,4,8]`, not `[1,2,10,14]`. -/
theorem Scale_view_examples :
    Scale [1, 5, 7, 9] 2 exampleViewIt exampleParentIt
      = { mem := [10, 14, 18, 9], ok := true } ∧
    Scale [1, 5, 7, 9] 2 exampleParentIt exampleViewIt
      = { mem := [1, 2, 4, 8], ok := true } := by
  have h5 : mulF64 2 5 = 10 := by simpa using mulF64_intCast 2 5 (by norm_num)
  have h7 : mulF64 2 7 = 14 := by simpa using mulF64_intCast 2 7 (by norm_num)
  have h9 : mulF64 2 9 = 18 := by simpa using mulF64_intCast 2 9 (by norm_num)
  constructor
  · simp [Scale, scaleLoop, exampleViewIt, exampleParentIt, Slice.get, Slice.set, h5, h7, h9]
  · simp [Scale, scaleLoop, exampleViewIt, exampleParentIt, Slice.get, Slice.set,
      mulF64_two_one, mulF64_two_two, mulF64_two_four]

/-! ## Claim on `IsShapeSame` -/

theorem shapeLoop_eq (ashape bshape : Shape) (hlen : ashape.length = bshape.length)
    (n i : Nat) (hn : i + n = ashape.length) :
    shapeLoop ashape bshape n i = some (decide (ashape.drop i = bshape.drop i)) := by
  induction n generalizing i with
  | zero =>
    have h1 : ashape.drop i = [] := List.drop_eq_nil_of_le (by omega)
    have h2 : bshape.drop i = [] := List.drop_eq_nil_of_le (by omega)
    simp [shapeLoop, h1, h2]
  | succ n ih =>
    have hia : i < ashape.length := by omega
    have hib : i < bshape.length := by omega
    rw [shapeLoop, List.getElem?_eq_getElem hia, List.getElem?_eq_getElem hib]
    simp only
    have key : ashape.drop i = bshape.drop i ↔
        (ashape[i] = bshape[i] ∧ ashape.drop (i + 1) = bshape.drop (i + 1)) := by
      rw [List.drop_eq_getElem_cons hia, List.drop_eq_getElem_cons hib, List.cons.injEq]
    by_cases hxy : ashape[i] = bshape[i]
    · rw [if_neg (by simpa using hxy), ih (i + 1) (by omega)]
      simp [key, hxy]
    · rw [if_pos hxy]
      simp [key, hxy]

theorem IsShapeSame_eq (a b : ndarray) (ha : a.ndims = a.shape.length)
    (hb : b.ndims = b.shape.length) :
    IsShapeSame a b = some (decide (a.shape = b.shape)) := by
  unfold IsShapeSame ndarray.Ndims ndarray.Shape
  by_cases hnd : a.ndims = b.ndims
  · have hlen : a.shape.length = b.shape.length := by omega
    rw [if_neg (by simpa using hnd), ha]
    simpa using shapeLoop_eq a.shape b.shape hlen a.shape.length 0 (by simp)
  · rw [if_pos hnd]
    have hne : a.shape ≠ b.shape := fun e => hnd (by rw [ha, hb, e])
    simp [hne]

/-- C16: for every two arrays `a` and `b`, each with rank `len(shape)`,
`IsShapeSame(a, b)` returns, and returns `true` exactly when the two arrays have
equal rank and equal extents at every axis in order, that is exactly when their
shapes are equal as sequences. -/
theorem IsShapeSame_spec (a b : ndarray) (ha : a.ndims = a.shape.length)
    (hb : b.ndims = b.shape.length) :
    ∃ r, IsShapeSame a b = some r ∧ (r = true ↔ a.shape = b.shape) ∧
      (r = true ↔ (a.ndims = b.ndims ∧ ∀ i : Nat, a.shape[i]? = b.shape[i]?)) := by
  refine ⟨decide (a.shape = b.shape), IsShapeSame_eq a b ha hb, by simp, ?_⟩
  simp only [decide_eq_true_eq]
  constructor
  · intro h
    exact ⟨by rw [ha, hb, h], fun i => by rw [h]⟩
  · rintro ⟨_, h⟩
    exact List.ext_getElem? h

/-- Instance of C16 at the spec's examples: `{2,3}` against `{2,3}` is `true`,
`{2,3}` against `{3,2}` is `false`. -/
theorem IsShapeSame_spec_witness :
    (∃ r, IsShapeSame exampleMatrix exampleMatrix = some r ∧
      (r = true ↔ exampleMatrix.shape = exampleMatrix.shape) ∧
      (r = true ↔ (exampleMatrix.ndims = exampleMatrix.ndims ∧
        ∀ i : Nat, exampleMatrix.shape[i]? = exampleMatrix.shape[i]?))) ∧
    IsShapeSame exampleMatrix exampleMatrix = some true ∧
    IsShapeSame exampleMatrix (Reshape exampleMatrix [3, 2]).array = some false :=
  ⟨IsShapeSame_spec exampleMatrix exampleMatrix (by decide) (by decide), by decide, by decide⟩

/-! ## Claim on `Arange` -/

theorem roundF64_five_halves : roundF64 (5 / 2) = 5 / 2 := by
  have h := roundF64_eq_of (5 / 2) (-51) 5629499534213120 (by norm_num [abs_of_pos])
    (by norm_num [abs_of_pos])
    (by
      have e : (5 / 2 : ℚ) / 2 ^ (-51 : ℤ) = ((5629499534213120 : ℤ) : ℚ) := by norm_num
      rw [e, roundEven_intCast])
  rw [h]; norm_num

theorem roundF64_nine_halves : roundF64 (9 / 2) = 9 / 2 := by
  have h := roundF64_eq_of (9 / 2) (-50) 5066549580791808 (by norm_num [abs_of_pos])
    (by norm_num [abs_of_pos])
    (by
      have e : (9 / 2 : ℚ) / 2 ^ (-50 : ℤ) = ((5066549580791808 : ℤ) : ℚ) := by norm_num
      rw [e, roundEven_intCast])
  rw [h]; norm_num

theorem roundF64_ofNat_small (n : ℕ) (h : n ≤ 2 ^ 53) : roundF64 (n : ℚ) = n := by
  have := roundF64_intCast (n : ℤ) (by rw [abs_of_nonneg (by omega)]; exact_mod_cast h)
  simpa using this

/-- The element count of `Arange(0, 10, 4)` is `int(2.5 + 2) = 4`. -/
theorem arangeCount_0_10_4 : arangeCount 0 10 [4] = some 4 := by
  have h10 : roundF64 10 = 10 := by simpa using roundF64_ofNat_small 10 (by norm_num)
  have hr : roundEven ((10 : ℚ) / 4) = 2 := by
    have e : (10 : ℚ) / 4 = ((2 : ℤ) : ℚ) + 1 / 2 := by norm_num
    rw [e, roundEven_tie_even 2 (by decide)]
  have hq : roundF64 ((10 : ℚ) / 4) = 5 / 2 := by
    have e : (10 : ℚ) / 4 = 5 / 2 := by norm_num
    rw [e, roundF64_five_halves]
  have hsum : roundF64 ((5 : ℚ) / 2 + (10 - ((2 : ℤ) : ℚ) * 4)) = 9 / 2 := by
    have e : (5 : ℚ) / 2 + (10 - ((2 : ℤ) : ℚ) * 4) = 9 / 2 := by norm_num
    rw [e, roundF64_nine_halves]
  have hf : ⌊(9 / 2 : ℚ)⌋ = 4 := by
    rw [Int.floor_eq_iff]; constructor <;> norm_num
  unfold arangeCount
  simp only [subF64, sub_zero, h10, divF64, remainderF64, addF64, hr, hq, hsum,
    if_neg (by norm_num : ¬ (4 : ℚ) = 0)]
  rw [truncInt_nonneg (by norm_num) (by norm_num), hf]

/-- C17 at `Arange(0, 10, 4)`, where `start < stop` and `step > 0`: the element
count is `int(10/4 + Remainder(10, 4)) = int(2.5 + 2) = 4` and the array holds
`[0, 4, 8, 12]`, whose last element is not below `stop = 10`. -/
theorem Arange_overshoots :
    (Arange 0 10 [4]).map (fun r => (r.1, r.2.shape)) = some ([0, 4, 8, 12], [1, 4]) ∧
    ¬ ((12 : Float64) < 10) := by
  have h4 : roundF64 4 = 4 := by simpa using roundF64_ofNat_small 4 (by norm_num)
  have h8 : roundF64 8 = 8 := by simpa using roundF64_ofNat_small 8 (by norm_num)
  have h12 : roundF64 12 = 12 := by simpa using roundF64_ofNat_small 12 (by norm_num)
  have hz : Zeros [1, 4] = some ([0, 0, 0, 0],
      { data := ⟨0, 4⟩, ndims := 2, shape := [1, 4], strides := [4, 1], size := 4,
        it := some { shape := [1, 4], strides := [4, 1] } }) := by rfl
  refine ⟨?_, by norm_num⟩
  unfold Arange
  rw [arangeCount_0_10_4]
  simp only [hz]
  simp [Slice.set, Slice.get, arangeFill, addF64, h4]
  norm_num [h8, h12]

/-! ## Claims on the safety of index arithmetic -/

/-- C19 (as stated) fails at the shape `{2^32, 2^32 + 1}`, whose extents are
positive, and its valid coordinate `{2^32 - 1, 0}`: the strides are
`{2^32 + 1, 1}`, the product `(2^32 + 1) * (2^32 - 1) = 2^64 - 1` wraps to `-1`
in `int` arithmetic, and the size wraps to `2^32`. -/
theorem Sub2ind_negative_on_overflow :
    ValidIndex [4294967296, 4294967297] [4294967295, 0] ∧
    ComputeStrides [4294967296, 4294967297] = [4294967297, 1] ∧
    ComputeSize [4294967296, 4294967297] = some 4294967296 ∧
    Sub2ind (ComputeStrides [4294967296, 4294967297]) [4294967295, 0] = some (-1) := by
  have hs : ComputeStrides [4294967296, 4294967297] = [4294967297, 1] := by
    norm_num [ComputeStrides, mulAll, wrapInt, List.range_succ]
  refine ⟨by norm_num [ValidIndex], hs, by norm_num [ComputeSize, mulAll, wrapInt], ?_⟩
  rw [hs]
  norm_num [Sub2ind, Sub2indFrom, wrapInt]

/-- C19 (as amended): for every shape of rank at least one whose extents are all
at least one and whose product of extents is an `int`, and for every coordinate
`idx` with `0 ≤ idx[i] < shape[i]` on every axis,
`0 ≤ Sub2ind(ComputeStrides(shape), idx) < ComputeSize(shape)`. -/
theorem Sub2ind_in_bounds (shape : Shape) (hne : shape ≠ []) (hpos : ∀ n ∈ shape, 1 ≤ n)
    (hfit : shape.prod ≤ maxInt) (idx : Index) (hidx : ValidIndex shape idx) :
    ∃ k size, Sub2ind (ComputeStrides shape) idx = some k ∧
      ComputeSize shape = some size ∧ 0 ≤ k ∧ k < size := by
  obtain ⟨h0, h1⟩ := dot_ComputeStrides_bounds shape hpos hfit idx hidx
  have hI : IsInt (dot (ComputeStrides shape) idx) := by
    unfold IsInt minInt
    unfold maxInt at *
    omega
  refine ⟨dot (ComputeStrides shape) idx, shape.prod, ?_, ComputeSize_of_fits hne hpos hfit,
    h0, h1⟩
  rw [Sub2ind_eq _ _ (by rw [ComputeStrides_length, ValidIndex_length hidx]),
    wrapInt_of_isInt hI]

/-- Instance of the amended C19 at the shape `{2,3}` and its last coordinate
`{1,2}`. -/
theorem Sub2ind_in_bounds_witness :
    ∃ k size, Sub2ind (ComputeStrides [2, 3]) [1, 2] = some k ∧
      ComputeSize [2, 3] = some size ∧ 0 ≤ k ∧ k < size :=
  Sub2ind_in_bounds [2, 3] (by decide) (by decide) (by decide) [1, 2] (by decide)

theorem dot_nonneg (strides : Shape) (idx : Index) (hs : ∀ s ∈ strides, 0 ≤ s)
    (hi : ∀ i ∈ idx, 0 ≤ i) : 0 ≤ dot strides idx := by
  induction strides generalizing idx with
  | nil => simp [dot]
  | cons s strides ih =>
    cases idx with
    | nil => simp [dot]
    | cons i idx =>
      have h1 := mul_nonneg (hs s (List.mem_cons_self _ _)) (hi i (List.mem_cons_self _ _))
      have h2 := ih idx (fun t ht => hs t (List.mem_cons_of_mem _ ht))
        (fun t ht => hi t (List.mem_cons_of_mem _ ht))
      rw [dot]
      omega

theorem ValidIndex_nonneg {shape : Shape} {idx : Index} (h : ValidIndex shape idx) :
    ∀ i ∈ idx, 0 ≤ i := by
  induction shape generalizing idx with
  | nil =>
    cases idx with
    | nil => simp
    | cons i idx => simp [ValidIndex] at h
  | cons n shape ih =>
    cases idx with
    | nil => simp
    | cons i idx =>
      intro t ht
      rcases List.mem_cons.mp ht with rfl | ht
      · exact h.1
      · exact ih h.2.2 t ht

/-- A coordinate of a sub-block that fits, shifted by the start of the block, is
a coordinate of the parent. -/
theorem ValidIndex_addIndex_same (parent : Shape) (start : Index) (shape : Shape)
    (idx : Index) (hstart : ValidIndex parent start) (hfits : FitsIn parent start shape)
    (hidx : ValidIndex shape idx) : ValidIndex parent (addIndex start idx) := by
  induction parent generalizing start shape idx with
  | nil =>
    cases start with
    | nil => simp [addIndex, ValidIndex]
    | cons s start => simp [ValidIndex] at hstart
  | cons p parent ih =>
    cases start with
    | nil => simp [ValidIndex] at hstart
    | cons s start =>
      cases shape with
      | nil => simp [FitsIn] at hfits
      | cons n shape =>
        cases idx with
        | nil => simp [ValidIndex] at hidx
        | cons i idx =>
          obtain ⟨hs0, hs1, hs2⟩ := hstart
          obtain ⟨hf1, hf2⟩ := hfits
          obtain ⟨hi0, hi1, hi2⟩ := hidx
          have := ih start shape idx hs2 hf2 hi2
          simp only [addIndex, List.zipWith_cons_cons, ValidIndex] at this ⊢
          exact ⟨by omega, by omega, this⟩

theorem ValidIndex_addIndex_pad (parent : Shape) (start : Index) (shape : Shape)
    (idx : Index) (m : Nat) (hstart : ValidIndex parent start)
    (hfits : FitsIn (parent.drop m) (start.drop m) shape) (hidx : ValidIndex shape idx) :
    ValidIndex parent (addIndex start (List.replicate m 0 ++ idx)) := by
  induction m generalizing parent start with
  | zero =>
    simpa using ValidIndex_addIndex_same parent start shape idx hstart
      (by simpa using hfits) hidx
  | succ m ih =>
    cases parent with
    | nil =>
      cases shape with
      | nil =>
        cases start with
        | nil => simp [addIndex, ValidIndex]
        | cons s start => simp [ValidIndex] at hstart
      | cons n shape => simp [FitsIn] at hfits
    | cons p parent =>
      cases start with
      | nil => simp [ValidIndex] at hstart
      | cons s start =>
        obtain ⟨hs0, hs1, hs2⟩ := hstart
        have := ih parent start hs2 (by simpa using hfits)
        simp only [addIndex, List.replicate_succ, List.cons_append, List.zipWith_cons_cons,
          ValidIndex, add_zero] at this ⊢
        exact ⟨hs0, hs1, this⟩

/-- The result of `View` on a well-formed parent, for a valid start and a
sub-shape of rank between one and the parent's rank. -/
theorem View_of_wellFormed (mem : List Float64) (p : ndarray) (hwf : WellFormed mem p)
    (start : Index) (hstart : ValidIndex p.shape start)
    (shape : Shape) (hne : shape ≠ []) (hr : shape.length ≤ p.shape.length) :
    ∃ sz, ComputeSize shape = some sz ∧
      0 ≤ dot p.strides start ∧ dot p.strides start < p.size ∧
      p.View start shape = some
        { data := ⟨p.data.off + (dot p.strides start).toNat,
                   p.data.len - (dot p.strides start).toNat⟩,
          ndims := shape.length, shape := shape,
          strides := p.strides.drop (p.strides.length - shape.length),
          size := sz, it := none } := by
  obtain ⟨hnep, hpos, hnd, hndmax, hstr, hsize, hmax, hlen, hmem⟩ := hwf
  have hfit : p.shape.prod ≤ maxInt := hsize ▸ hmax
  have hsl : start.length = p.strides.length := by
    rw [hstr, ComputeStrides_length, ValidIndex_length hstart]
  have hstl : p.strides.length = p.shape.length := by rw [hstr, ComputeStrides_length]
  obtain ⟨ho0, ho1⟩ := dot_ComputeStrides_bounds p.shape hpos hfit start hstart
  rw [← hstr] at ho0 ho1
  rw [← hsize] at ho1
  have hoI : IsInt (dot p.strides start) := by
    unfold IsInt minInt
    unfold maxInt at *
    omega
  have hsub : Sub2ind p.strides start = some (dot p.strides start) := by
    rw [Sub2ind_eq _ _ (by omega), wrapInt_of_isInt hoI]
  have hslice : p.data.sliceFrom (dot p.strides start) =
      some ⟨p.data.off + (dot p.strides start).toNat,
            p.data.len - (dot p.strides start).toNat⟩ := by
    unfold Slice.sliceFrom
    rw [if_pos ⟨ho0, by omega⟩]
  have hw : wrapInt (p.ndims - shape.length) =
      ((p.strides.length - shape.length : Nat) : Int) := by
    rw [wrapInt_of_isInt]
    · omega
    · unfold IsInt minInt
      unfold maxInt at *
      omega
  obtain ⟨sz, hsz⟩ := ComputeSize_isSome hne
  refine ⟨sz, hsz, ho0, ho1, ?_⟩
  unfold ndarray.View
  simp only [hsub, hslice, hw, hsz]
  rw [if_pos ⟨by omega, by omega⟩]
  simp

/-- C20: a view that fits stays inside its buffer.  For every well-formed
parent, every valid start coordinate and every sub-shape of rank `1 ≤ r ≤`
parent rank with all extents at least one and `start[axis] + shape[j] ≤
parent.shape[axis]` on each of the parent's trailing `r` axes, `View(start,
shape)` returns, and every coordinate `idx` with `0 ≤ idx[j] < shape[j]`
satisfies `0 ≤ Sub2ind(view.strides, idx) < len(view.data)`. -/
theorem View_fits (mem : List Float64) (p : ndarray) (hwf : WellFormed mem p)
    (start : Index) (hstart : ValidIndex p.shape start)
    (shape : Shape) (hne : shape ≠ []) (hr : shape.length ≤ p.shape.length)
    (hfits : FitsIn (p.shape.drop (p.shape.length - shape.length))
      (start.drop (p.shape.length - shape.length)) shape) :
    ∃ v, p.View start shape = some v ∧
      ∀ idx, ValidIndex shape idx →
        ∃ j, Sub2ind v.strides idx = some j ∧ 0 ≤ j ∧ j < v.data.len := by
  obtain ⟨sz, _, ho0, ho1, hview⟩ := View_of_wellFormed mem p hwf start hstart shape hne hr
  obtain ⟨hnep, hpos, hnd, hndmax, hstr, hsize, hmax, hlen, hmem⟩ := hwf
  have hfit : p.shape.prod ≤ maxInt := hsize ▸ hmax
  have hstl : p.strides.length = p.shape.length := by rw [hstr, ComputeStrides_length]
  have hsl : start.length = p.strides.length := by
    rw [hstl, ValidIndex_length hstart]
  refine ⟨_, hview, ?_⟩
  intro idx hidx
  have hil := ValidIndex_length hidx
  have hvalid := ValidIndex_addIndex_pad p.shape start shape idx
    (p.shape.length - shape.length) hstart hfits hidx
  obtain ⟨hb0, hb1⟩ := dot_ComputeStrides_bounds p.shape hpos hfit _ hvalid
  have hpad : List.replicate (p.shape.length - shape.length) (0 : Int) ++ idx =
      padIndex p.strides.length idx := by
    rw [padIndex, hstl, hil]
  rw [hpad, ← hstr, dot_view p.strides start idx hsl (by omega), hil] at hb0 hb1
  have hJ0 : 0 ≤ dot (p.strides.drop (p.strides.length - shape.length)) idx := by
    apply dot_nonneg _ _ _ (ValidIndex_nonneg hidx)
    intro s hs
    have hsm : s ∈ ComputeStrides p.shape := hstr ▸ List.mem_of_mem_drop hs
    have := (ComputeStrides_mem_bounds hpos hfit hsm).1
    omega
  have hJI : IsInt (dot (p.strides.drop (p.strides.length - shape.length)) idx) := by
    unfold IsInt minInt
    unfold maxInt at *
    omega
  refine ⟨dot (p.strides.drop (p.strides.length - shape.length)) idx, ?_, hJ0, ?_⟩
  · simp only
    rw [Sub2ind_eq _ _ (by simp; omega), wrapInt_of_isInt hJI]
  · simp only
    omega

/-- Instance of C20 at the spec's view example: the view of the `{2,2}` array at
start `{1,0}` with shape `{1,2}`. -/
theorem View_fits_witness :
    ∃ v, exampleParent.View [1, 0] [1, 2] = some v ∧
      ∀ idx, ValidIndex [1, 2] idx →
        ∃ j, Sub2ind v.strides idx = some j ∧ 0 ≤ j ∧ j < v.data.len :=
  View_fits [1, 2, 3, 4] exampleParent exampleParent_wellFormed [1, 0] (by decide) [1, 2]
    (by decide) (by decide) (by simp [FitsIn, exampleParent])

end GoNd
